import Mathlib

/-!
# Verification of `ssb-causal-sort` (`src/src/lib.rs`)

Shallow embedding of the crate's two functions, `causal_sort` and
`find_all_links`, together with the parts of its dependencies that decide
their behaviour:

* `serde_json::Value` is embedded as the inductive `Value`;
* the external identifier codec (`ssb_multiformats::multihash::Multihash`
  together with `Multihash::from_legacy`) is kept abstract: identifiers live
  in an arbitrary type `M` with decidable equality and the codec is a
  parameter `parseId : String → Option M`;
* the external JSON parser (`serde_json::from_str`) is likewise a parameter
  `parseJson : String → Option Value`; the source's
  `serde_json::from_str(msg).unwrap_or(Value::Null)` becomes
  `(parseJson msg).getD Value.null`;
* `daggy::Dag` is embedded as a node count plus an edge list in insertion
  order; `Dag::add_edge` refuses an edge that would close a cycle, which on
  an acyclic graph (an invariant of `Dag`) is exactly "a path from the
  target back to the source already exists";
* `petgraph::visit::Topo` is embedded as the stack-driven loop `topoLoop`
  (`Topo::next` pops a pending node, skips it when already visited,
  otherwise emits it and pushes every out-neighbour all of whose
  in-neighbours are visited).

The Rust `causal_sort` returns `Vec<K>` and *panics* (via
`Result::expect`) when `add_edge` reports a cycle; the embedding returns
`Option (List K)` where `none` models that panic — the Rust signature has
no error channel.
-/

namespace CausalSort

/-- Embedding of `serde_json::Value`: a JSON document tree.  Numbers are
opaque to the program (it only ever matches on strings, arrays and
objects), so their payload is modelled as an `Int`.  Objects are modelled
as association lists in iteration order. -/
inductive Value where
  | null : Value
  | bool (b : Bool) : Value
  | num (n : Int) : Value
  | str (s : String) : Value
  | arr (vs : List Value) : Value
  | obj (kvs : List (String × Value)) : Value

/-- `Value::as_str` from serde_json: `some s` exactly on strings. -/
def Value.as_str : Value → Option String
  | .str s => some s
  | _ => none

section Extractor

variable {M : Type} (parseId : String → Option M)

mutual

/-- Embedding of `find_all_links` (src/src/lib.rs:71-96).  The `&mut Vec`
accumulator of the source is returned functionally; the list returned is
the sequence of pushes in order.  The source first pushes the value itself
when it is a string that parses with the identifier codec (`as_str`
returns `some` only on strings, so the push happens exactly in the string
case), then matches the value: arrays recurse into every element, objects
recurse into every value that is an object, array or string, everything
else is ignored.  The two consecutive matches of the source are fused into
one top-level match per constructor. -/
def find_all_links : Value → List M
  | .str st =>
    match parseId st with
    | some mh => [mh]
    | none => []
  | .arr vs => find_all_links_arr vs
  | .obj kvs => find_all_links_obj kvs
  | _ => []

/-- The `for val in arr` loop of `find_all_links`. -/
def find_all_links_arr : List Value → List M
  | [] => []
  | v :: vs => find_all_links v ++ find_all_links_arr vs

/-- The `for val in kv.values()` loop of `find_all_links`: only object,
array and string values are recursed into. -/
def find_all_links_obj : List (String × Value) → List M
  | [] => []
  | (_, v) :: kvs =>
    (match v with
     | .obj _ => find_all_links v
     | .arr _ => find_all_links v
     | .str _ => find_all_links v
     | _ => []) ++ find_all_links_obj kvs

end

mutual

/-- Specification-side description of the extractor ("collects the string
values at any nesting depth, in depth-first visit order"): the list of all
string leaves of a document in depth-first order. -/
def dfsStrings : Value → List String
  | .str s => [s]
  | .arr vs => dfsStringsArr vs
  | .obj kvs => dfsStringsObj kvs
  | _ => []

/-- `dfsStrings` on the elements of an array, in order. -/
def dfsStringsArr : List Value → List String
  | [] => []
  | v :: vs => dfsStrings v ++ dfsStringsArr vs

/-- `dfsStrings` on the values of an object, in iteration order. -/
def dfsStringsObj : List (String × Value) → List String
  | [] => []
  | (_, v) :: kvs => dfsStrings v ++ dfsStringsObj kvs

end

mutual

/-- The extractor collects exactly the string leaves that parse as
identifiers, in depth-first order: `find_all_links` is `dfsStrings`
followed by `filterMap` with the codec. -/
theorem find_all_links_eq_filterMap (v : Value) :
    find_all_links parseId v = (dfsStrings v).filterMap parseId := by
  cases v with
  | str st => cases h : parseId st <;> simp [find_all_links, dfsStrings, h]
  | arr vs =>
    simpa [find_all_links, dfsStrings] using find_all_links_arr_eq_filterMap vs
  | obj kvs =>
    simpa [find_all_links, dfsStrings] using find_all_links_obj_eq_filterMap kvs
  | null => simp [find_all_links, dfsStrings]
  | bool b => simp [find_all_links, dfsStrings]
  | num n => simp [find_all_links, dfsStrings]

/-- Array version of `find_all_links_eq_filterMap`. -/
theorem find_all_links_arr_eq_filterMap (vs : List Value) :
    find_all_links_arr parseId vs = (dfsStringsArr vs).filterMap parseId := by
  cases vs with
  | nil => simp [find_all_links_arr, dfsStringsArr]
  | cons v vs =>
    simp [find_all_links_arr, dfsStringsArr, find_all_links_eq_filterMap v,
      find_all_links_arr_eq_filterMap vs]

/-- Object version of `find_all_links_eq_filterMap`.  The source skips
scalar object values instead of recursing into them, which contributes
nothing either way. -/
theorem find_all_links_obj_eq_filterMap (kvs : List (String × Value)) :
    find_all_links_obj parseId kvs = (dfsStringsObj kvs).filterMap parseId := by
  cases kvs with
  | nil => simp [find_all_links_obj, dfsStringsObj]
  | cons kv kvs =>
    obtain ⟨k, v⟩ := kv
    cases v <;>
      simp [find_all_links_obj, dfsStringsObj, dfsStrings, List.filterMap_cons,
        find_all_links_obj_eq_filterMap kvs, find_all_links_eq_filterMap]
    case str s => cases parseId s <;> simp

end

end Extractor

/-! ## Association lists

`HashMap` in the source is only ever used through `entry().or_insert` and
`get`; iteration order is never observed.  An association list in
insertion order with first-match lookup is therefore a faithful model. -/

section AList

variable {α β : Type} [DecidableEq α]

/-- First-match lookup in an association list (`HashMap::get`). -/
def alookup : List (α × β) → α → Option β
  | [], _ => none
  | (a, b) :: l, x => if a = x then some b else alookup l x

theorem alookup_append (l₁ l₂ : List (α × β)) (x : α) :
    alookup (l₁ ++ l₂) x =
      match alookup l₁ x with
      | some v => some v
      | none => alookup l₂ x := by
  induction l₁ with
  | nil => simp [alookup]
  | cons p l₁ ih =>
    obtain ⟨a, b⟩ := p
    by_cases h : a = x <;> simp [alookup, h, ih]

theorem alookup_eq_none (l : List (α × β)) (x : α)
    (h : ∀ p ∈ l, p.1 ≠ x) : alookup l x = none := by
  induction l with
  | nil => rfl
  | cons p l ih =>
    obtain ⟨a, b⟩ := p
    have ha : a ≠ x := h (a, b) (List.mem_cons_self _ _)
    simp only [alookup, if_neg ha]
    exact ih fun p hp => h p (List.mem_cons_of_mem _ hp)

theorem alookup_isSome_iff (l : List (α × β)) (x : α) :
    (alookup l x).isSome ↔ x ∈ l.map Prod.fst := by
  induction l with
  | nil => simp [alookup]
  | cons p l ih =>
    obtain ⟨a, b⟩ := p
    by_cases h : a = x
    · subst h; simp [alookup]
    · simp [alookup, h, ih, Ne.symm h]

theorem alookup_mem (l : List (α × β)) (x : α) (v : β)
    (h : alookup l x = some v) : (x, v) ∈ l := by
  induction l with
  | nil => simp [alookup] at h
  | cons p l ih =>
    obtain ⟨a, b⟩ := p
    by_cases hax : a = x
    · subst hax
      simp only [alookup, if_pos rfl] at h
      injection h with h
      subst h
      exact List.mem_cons_self _ _
    · simp only [alookup, if_neg hax] at h
      exact List.mem_cons_of_mem _ (ih h)

theorem mem_alookup_of_nodupKeys (l : List (α × β)) (x : α) (v : β)
    (hnd : (l.map Prod.fst).Nodup) (h : (x, v) ∈ l) : alookup l x = some v := by
  induction l with
  | nil => simp at h
  | cons p l ih =>
    obtain ⟨a, b⟩ := p
    simp only [List.map_cons, List.nodup_cons] at hnd
    rcases List.mem_cons.mp h with h | h
    · injection h with h1 h2
      subst h1; subst h2
      simp [alookup]
    · have hax : a ≠ x := by
        rintro rfl
        exact hnd.1 (List.mem_map.mpr ⟨(a, v), h, rfl⟩)
      simp only [alookup, if_neg hax]
      exact ih hnd.2 h

end AList

/-! ## Directed graphs as edge lists, reachability, acyclicity

`daggy::Dag::add_edge(a, b, w)` inserts the edge and then rejects it (with
`WouldCycle`) exactly when the resulting graph is cyclic.  Since a `Dag` is
acyclic by invariant, the rejected edges are exactly those whose target
already reaches their source (a self-loop being the reflexive case).  The
path relation is `Relation.ReflTransGen` over edge membership; the bounded
check `reachB` with fuel `edges.length` decides it (`reachB_iff_rtg`). -/

section Graph

variable {α : Type} [DecidableEq α]

/-- One directed edge step of an edge-list graph. -/
def EdgeRel (edges : List (α × α)) (a b : α) : Prop := (a, b) ∈ edges

instance (edges : List (α × α)) (a b : α) : Decidable (EdgeRel edges a b) :=
  inferInstanceAs (Decidable ((a, b) ∈ edges))

/-- Fuel-bounded depth-first reachability: `reachB edges f a b` holds iff
there is a path of at most `f` edges from `a` to `b`. -/
def reachB (edges : List (α × α)) : Nat → α → α → Bool
  | 0, a, b => decide (a = b)
  | f + 1, a, b =>
    decide (a = b) ||
      (edges.filter (fun e => decide (e.1 = a))).any (fun e => reachB edges f e.2 b)

/-- A walk along the node list `l` from `a` to `b`: every consecutive pair
is an edge of the graph. -/
def walkB (edges : List (α × α)) : α → List α → α → Bool
  | a, [], b => decide (a = b)
  | a, c :: l, b => decide ((a, c) ∈ edges) && walkB edges c l b

/-- The consecutive pairs of a walk. -/
def walkPairs : α → List α → List (α × α)
  | _, [] => []
  | a, c :: l => (a, c) :: walkPairs c l

theorem reachB_sound (edges : List (α × α)) :
    ∀ (f : Nat) (a b : α), reachB edges f a b = true →
      Relation.ReflTransGen (EdgeRel edges) a b := by
  intro f
  induction f with
  | zero =>
    intro a b h
    simp only [reachB, decide_eq_true_eq] at h
    exact h ▸ Relation.ReflTransGen.refl
  | succ f ih =>
    intro a b h
    simp only [reachB, Bool.or_eq_true, decide_eq_true_eq, List.any_eq_true] at h
    rcases h with h | ⟨e, he, hr⟩
    · exact h ▸ Relation.ReflTransGen.refl
    · rcases List.mem_filter.mp he with ⟨hmem, hfst⟩
      have hfst' : e.1 = a := of_decide_eq_true hfst
      have step : EdgeRel edges a e.2 := by
        have : (e.1, e.2) ∈ edges := by simpa using hmem
        rwa [hfst'] at this
      exact Relation.ReflTransGen.head step (ih _ _ hr)

theorem walkB_of_rtg (edges : List (α × α)) (a b : α)
    (h : Relation.ReflTransGen (EdgeRel edges) a b) :
    ∃ l, walkB edges a l b = true := by
  induction h using Relation.ReflTransGen.head_induction_on with
  | refl => exact ⟨[], by simp [walkB]⟩
  | @head x y hstep _ ih =>
    obtain ⟨l, hl⟩ := ih
    refine ⟨y :: l, ?_⟩
    simp only [walkB, Bool.and_eq_true, decide_eq_true_eq]
    exact ⟨hstep, hl⟩

theorem walkPairs_mem_edges (edges : List (α × α)) :
    ∀ (l : List α) (a b : α), walkB edges a l b = true →
      ∀ p ∈ walkPairs a l, p ∈ edges := by
  intro l
  induction l with
  | nil => intro a b _ p hp; simp [walkPairs] at hp
  | cons c l ih =>
    intro a b h p hp
    simp only [walkB, Bool.and_eq_true, decide_eq_true_eq] at h
    rcases List.mem_cons.mp hp with rfl | hp
    · exact h.1
    · exact ih c b h.2 p hp

theorem walkPairs_fst_mem :
    ∀ (l : List α) (a : α) (p : α × α), p ∈ walkPairs a l → p.1 ∈ a :: l := by
  intro l
  induction l with
  | nil => intro a p hp; simp [walkPairs] at hp
  | cons c l ih =>
    intro a p hp
    rcases List.mem_cons.mp hp with rfl | hp
    · exact List.mem_cons_self _ _
    · exact List.mem_cons_of_mem _ (ih c p hp)

theorem walkPairs_nodup :
    ∀ (l : List α) (a : α), (a :: l).Nodup → (walkPairs a l).Nodup := by
  intro l
  induction l with
  | nil => intro a _; simp [walkPairs]
  | cons c l ih =>
    intro a hnd
    have h1 : a ∉ c :: l := (List.nodup_cons.mp hnd).1
    have h2 : (c :: l).Nodup := (List.nodup_cons.mp hnd).2
    simp only [walkPairs, List.nodup_cons]
    exact ⟨fun hmem => h1 (walkPairs_fst_mem l c (a, c) hmem), ih c h2⟩

theorem walkPairs_length : ∀ (l : List α) (a : α), (walkPairs a l).length = l.length := by
  intro l
  induction l with
  | nil => intro a; simp [walkPairs]
  | cons c l ih => intro a; simp [walkPairs, ih c]

/-- A walk with pairwise-distinct nodes is no longer than the edge list:
its consecutive pairs are distinct members of `edges`. -/
theorem walkB_nodup_length_le (edges : List (α × α)) (l : List α) (a b : α)
    (hw : walkB edges a l b = true) (hnd : (a :: l).Nodup) :
    l.length ≤ edges.length := by
  have hsub : walkPairs a l ⊆ edges := fun p hp =>
    walkPairs_mem_edges edges l a b hw p hp
  have hnd' : (walkPairs a l).Nodup := walkPairs_nodup l a hnd
  have := (hnd'.subperm hsub).length_le
  simpa [walkPairs_length] using this

/-- A suffix of a walk starting at an occurrence of `x` is a walk from `x`. -/
theorem walkB_suffix (edges : List (α × α)) :
    ∀ (l₁ : List α) (a x b : α) (l₂ : List α),
      walkB edges a (l₁ ++ x :: l₂) b = true → walkB edges x l₂ b = true := by
  intro l₁
  induction l₁ with
  | nil =>
    intro a x b l₂ h
    simp only [List.nil_append, walkB, Bool.and_eq_true] at h
    exact h.2
  | cons c l₁ ih =>
    intro a x b l₂ h
    simp only [List.cons_append, walkB, Bool.and_eq_true] at h
    exact ih c x b l₂ h.2

/-- Any walk can be shortened to one whose node list is duplicate-free. -/
theorem walkB_shorten (edges : List (α × α)) :
    ∀ (n : Nat) (l : List α) (a b : α), l.length ≤ n → walkB edges a l b = true →
      ∃ l', l'.length ≤ l.length ∧ (a :: l').Nodup ∧ walkB edges a l' b = true := by
  intro n
  induction n with
  | zero =>
    intro l a b hlen hw
    have : l = [] := List.length_eq_zero.mp (Nat.le_zero.mp hlen)
    subst this
    have hab : a = b := by simpa [walkB] using hw
    exact ⟨[], Nat.le_refl _, by simp, by simpa [walkB] using hab⟩
  | succ n ih =>
    intro l a b hlen hw
    by_cases hmem : a ∈ l
    · -- cut the walk at the later occurrence of `a`
      obtain ⟨l₁, l₂, rfl⟩ := List.append_of_mem hmem
      have hw₂ : walkB edges a l₂ b = true := walkB_suffix edges l₁ a a b l₂ hw
      have hlt : l₂.length < (l₁ ++ a :: l₂).length := by
        simp [List.length_append]; omega
      have hlen₂ : l₂.length ≤ n := by omega
      obtain ⟨l', h1, h2, h3⟩ := ih l₂ a b hlen₂ hw₂
      exact ⟨l', by omega, h2, h3⟩
    · -- `a` is fresh; shorten the tail
      cases l with
      | nil => exact ⟨[], Nat.le_refl _, by simp, hw⟩
      | cons c l =>
        simp only [walkB, Bool.and_eq_true] at hw
        have hlen' : l.length ≤ n := by
          simp only [List.length_cons] at hlen; omega
        obtain ⟨l', h1, h2, h3⟩ := ih l c b hlen' hw.2
        by_cases hac : a ∈ c :: l'
        · -- `a` occurs in the shortened tail walk: cut there instead
          rcases List.mem_cons.mp hac with rfl | hal'
          · exact absurd (List.mem_cons_self a l) hmem
          · obtain ⟨m₁, m₂, rfl⟩ := List.append_of_mem hal'
            have hw₂ : walkB edges a m₂ b = true := walkB_suffix edges m₁ c a b m₂ h3
            have hle : (m₁ ++ a :: m₂).length ≤ l.length := h1
            have hlt : m₂.length < (m₁ ++ a :: m₂).length := by
              simp [List.length_append]; omega
            obtain ⟨l'', g1, g2, g3⟩ := ih m₂ a b (by omega) hw₂
            refine ⟨l'', ?_, g2, g3⟩
            simp only [List.length_cons]
            omega
        · refine ⟨c :: l', by simpa using h1, List.nodup_cons.mpr ⟨hac, h2⟩, ?_⟩
          simp only [walkB, Bool.and_eq_true]
          exact ⟨hw.1, h3⟩

/-- A walk of length at most the fuel is found by the bounded search. -/
theorem reachB_of_walkB (edges : List (α × α)) :
    ∀ (l : List α) (f : Nat) (a b : α), walkB edges a l b = true →
      l.length ≤ f → reachB edges f a b = true := by
  intro l
  induction l with
  | nil =>
    intro f a b hw _
    have hab : a = b := by simpa [walkB] using hw
    cases f <;> simp [reachB, hab]
  | cons c l ih =>
    intro f a b hw hlen
    simp only [walkB, Bool.and_eq_true, decide_eq_true_eq] at hw
    cases f with
    | zero => simp at hlen
    | succ f =>
      simp only [reachB, Bool.or_eq_true, List.any_eq_true]
      refine Or.inr ⟨(a, c), ?_, ?_⟩
      · exact List.mem_filter.mpr ⟨hw.1, by simp⟩
      · refine ih f c b hw.2 ?_
        simp only [List.length_cons] at hlen
        omega

/-- The bounded check with fuel `edges.length` decides the path relation. -/
theorem reachB_iff_rtg (edges : List (α × α)) (a b : α) :
    reachB edges edges.length a b = true ↔
      Relation.ReflTransGen (EdgeRel edges) a b := by
  constructor
  · exact reachB_sound edges edges.length a b
  · intro h
    obtain ⟨l, hl⟩ := walkB_of_rtg edges a b h
    obtain ⟨l', h1, h2, h3⟩ := walkB_shorten edges l.length l a b (Nat.le_refl _) hl
    exact reachB_of_walkB edges l' edges.length a b h3
      (walkB_nodup_length_le edges l' a b h3 h2)

/-- A graph is acyclic when no edge is part of a closed path: no edge's
target reaches the edge's source. -/
def Acyclic (edges : List (α × α)) : Prop :=
  ∀ p ∈ edges, ¬ Relation.ReflTransGen (EdgeRel edges) p.2 p.1

instance Acyclic.dec (edges : List (α × α)) : Decidable (Acyclic edges) :=
  decidable_of_iff
    (edges.all fun p => ! reachB edges edges.length p.2 p.1)
    (by
      simp only [List.all_eq_true, Bool.not_eq_true']
      constructor
      · intro h p hp hr
        have := h p hp
        rw [(reachB_iff_rtg edges p.2 p.1).mpr hr] at this
        cases this
      · intro h p hp
        rcases hb : reachB edges edges.length p.2 p.1 with _ | _
        · rfl
        · exact absurd (reachB_sound edges edges.length p.2 p.1 hb) (h p hp))

theorem rtg_mono_subset {edges edges' : List (α × α)}
    (hsub : ∀ p ∈ edges, p ∈ edges') {a b : α}
    (h : Relation.ReflTransGen (EdgeRel edges) a b) :
    Relation.ReflTransGen (EdgeRel edges') a b :=
  Relation.ReflTransGen.mono (fun x y hxy => hsub (x, y) hxy) h

/-- Peeling the first use of a freshly appended edge off a path. -/
theorem rtg_append_decomp (edges : List (α × α)) (a b : α) :
    ∀ x y : α, Relation.ReflTransGen (EdgeRel (edges ++ [(a, b)])) x y →
      Relation.ReflTransGen (EdgeRel edges) x y ∨
        (Relation.ReflTransGen (EdgeRel edges) x a ∧
          Relation.ReflTransGen (EdgeRel (edges ++ [(a, b)])) b y) := by
  intro x y h
  induction h using Relation.ReflTransGen.head_induction_on with
  | refl => exact Or.inl Relation.ReflTransGen.refl
  | @head u v hstep htail ih =>
    rcases List.mem_append.mp hstep with hold | hnew
    · rcases ih with ih | ⟨ih1, ih2⟩
      · exact Or.inl (Relation.ReflTransGen.head hold ih)
      · exact Or.inr ⟨Relation.ReflTransGen.head hold ih1, ih2⟩
    · have huv : u = a ∧ v = b := by
        simpa [Prod.ext_iff] using hnew
      exact Or.inr ⟨huv.1 ▸ Relation.ReflTransGen.refl, huv.2 ▸ htail⟩

/-- With no pre-existing path from `b` back to `a`, paths of the extended
graph starting at `b` already live in the old graph. -/
theorem rtg_append_from_target (edges : List (α × α)) (a b y : α)
    (hno : ¬ Relation.ReflTransGen (EdgeRel edges) b a)
    (h : Relation.ReflTransGen (EdgeRel (edges ++ [(a, b)])) b y) :
    Relation.ReflTransGen (EdgeRel edges) b y := by
  rcases rtg_append_decomp edges a b b y h with h' | ⟨h1, _⟩
  · exact h'
  · exact absurd h1 hno

/-- Paths of the extended graph either avoid the new edge or factor
through it exactly once. -/
theorem rtg_append_factor (edges : List (α × α)) (a b : α)
    (hno : ¬ Relation.ReflTransGen (EdgeRel edges) b a) (x y : α)
    (h : Relation.ReflTransGen (EdgeRel (edges ++ [(a, b)])) x y) :
    Relation.ReflTransGen (EdgeRel edges) x y ∨
      (Relation.ReflTransGen (EdgeRel edges) x a ∧
        Relation.ReflTransGen (EdgeRel edges) b y) := by
  rcases rtg_append_decomp edges a b x y h with h' | ⟨h1, h2⟩
  · exact Or.inl h'
  · exact Or.inr ⟨h1, rtg_append_from_target edges a b y hno h2⟩

/-- `Dag::add_edge` preserves acyclicity: appending an edge whose target
does not already reach its source keeps the graph acyclic. -/
theorem Acyclic.append (edges : List (α × α)) (a b : α)
    (hacy : Acyclic edges)
    (hno : ¬ Relation.ReflTransGen (EdgeRel edges) b a) :
    Acyclic (edges ++ [(a, b)]) := by
  intro p hp hr
  rcases List.mem_append.mp hp with hold | hnew
  · rcases rtg_append_factor edges a b hno p.2 p.1 hr with h' | ⟨h1, h2⟩
    · exact hacy p hold h'
    · -- p.2 →* a, b →* p.1, and p.1 → p.2 is an old edge: b →* a
      have : Relation.ReflTransGen (EdgeRel edges) b a :=
        Relation.ReflTransGen.trans h2
          (Relation.ReflTransGen.trans
            (Relation.ReflTransGen.single (show EdgeRel edges p.1 p.2 from hold))
            h1)
      exact hno this
  · have hpab : p = (a, b) := by simpa using hnew
    subst hpab
    rcases rtg_append_factor edges a b hno b a hr with h' | ⟨_, h2⟩
    · exact hno h'
    · exact hno h2

end Graph

/-! ## The topological traversal (`petgraph::visit::Topo`)

`Topo::new` seeds a stack with every node that has no incoming edge, in
node-index order (so the largest index ends on top).  `Topo::next` pops
the stack until it finds an unvisited node, marks it visited, emits it,
and pushes those of its out-neighbours whose in-neighbours are now all
visited.  `petgraph` iterates the adjacency lists newest-edge-first, and
pushing in iteration order leaves the last-iterated neighbour on top of
the stack.  The loop below models the stack with its head as the top and
uses explicit fuel; `topoFuel` is provably enough for the loop to drain
the stack (`topoLoop_closure`). -/

section Topo

/-- Out-neighbours of `u`, in `petgraph` iteration order
(newest edge first). -/
def neighborsOut (edges : List (Nat × Nat)) (u : Nat) : List Nat :=
  ((edges.filter fun e => decide (e.1 = u)).map Prod.snd).reverse

/-- In-neighbours of `v`, in `petgraph` iteration order
(newest edge first). -/
def neighborsIn (edges : List (Nat × Nat)) (v : Nat) : List Nat :=
  ((edges.filter fun e => decide (e.2 = v)).map Prod.fst).reverse

theorem mem_neighborsOut (edges : List (Nat × Nat)) (u x : Nat) :
    x ∈ neighborsOut edges u ↔ (u, x) ∈ edges := by
  simp only [neighborsOut, List.mem_reverse, List.mem_map, List.mem_filter,
    decide_eq_true_eq]
  constructor
  · rintro ⟨⟨a, b⟩, ⟨hmem, rfl⟩, rfl⟩
    exact hmem
  · intro h
    exact ⟨(u, x), ⟨h, rfl⟩, rfl⟩

theorem mem_neighborsIn (edges : List (Nat × Nat)) (v x : Nat) :
    x ∈ neighborsIn edges v ↔ (x, v) ∈ edges := by
  simp only [neighborsIn, List.mem_reverse, List.mem_map, List.mem_filter,
    decide_eq_true_eq]
  constructor
  · rintro ⟨⟨a, b⟩, ⟨hmem, rfl⟩, rfl⟩
    exact hmem
  · intro h
    exact ⟨(x, v), ⟨h, rfl⟩, rfl⟩

theorem neighborsOut_length_le (edges : List (Nat × Nat)) (u : Nat) :
    (neighborsOut edges u).length ≤ edges.length := by
  simpa [neighborsOut] using List.length_filter_le _ edges

/-- In an acyclic graph every nonempty set of nodes drawn from the node
universe contains a node with no in-neighbour inside the set: take an
element with the most reachable nodes. -/
theorem acyclic_exists_source (n : Nat) (edges : List (Nat × Nat))
    (hacy : Acyclic edges) (hwf : ∀ p ∈ edges, p.1 < n)
    (S : Finset Nat) (hS : S.Nonempty) (hSsub : ∀ x ∈ S, x < n) :
    ∃ x ∈ S, ∀ u, (u, x) ∈ edges → u ∉ S := by
  classical
  obtain ⟨x, hxS, hmax⟩ := S.exists_max_image
    (fun v => ((Finset.range n).filter
      fun y => Relation.ReflTransGen (EdgeRel edges) v y).card) hS
  refine ⟨x, hxS, fun u hu huS => ?_⟩
  have hsub : ((Finset.range n).filter
        fun y => Relation.ReflTransGen (EdgeRel edges) x y) ⊆
      ((Finset.range n).filter
        fun y => Relation.ReflTransGen (EdgeRel edges) u y) := by
    intro y hy
    rcases Finset.mem_filter.mp hy with ⟨hyr, hyp⟩
    exact Finset.mem_filter.mpr ⟨hyr, Relation.ReflTransGen.head hu hyp⟩
  have hun : u < n := hwf (u, x) hu
  have huu : u ∈ (Finset.range n).filter
      fun y => Relation.ReflTransGen (EdgeRel edges) u y :=
    Finset.mem_filter.mpr ⟨Finset.mem_range.mpr hun, Relation.ReflTransGen.refl⟩
  have hux : u ∉ (Finset.range n).filter
      fun y => Relation.ReflTransGen (EdgeRel edges) x y := by
    intro hmem
    exact hacy (u, x) hu (Finset.mem_filter.mp hmem).2
  have hss : ((Finset.range n).filter
        fun y => Relation.ReflTransGen (EdgeRel edges) x y) ⊂
      ((Finset.range n).filter
        fun y => Relation.ReflTransGen (EdgeRel edges) u y) :=
    Finset.ssubset_iff_of_subset hsub |>.mpr ⟨u, huu, hux⟩
  exact absurd (hmax u huS) (Nat.not_le.mpr (Finset.card_lt_card hss))

/-- The main loop of the traversal: `Topo::next` iterated to exhaustion.
The first list is the `tovisit` stack (head = top), the second the set of
visited nodes; the result is the emission order. -/
def topoLoop (edges : List (Nat × Nat)) : Nat → List Nat → List Nat → List Nat
  | 0, _, _ => []
  | _ + 1, [], _ => []
  | fuel + 1, nix :: rest, visited =>
    if nix ∈ visited then topoLoop edges fuel rest visited
    else
      nix :: topoLoop edges fuel
        ((((neighborsOut edges nix).filter fun m =>
            (neighborsIn edges m).all fun u => decide (u ∈ nix :: visited)).reverse)
          ++ rest)
        (nix :: visited)

/-- `Topo::new`: every node without incoming edges, pushed in index order
(the largest index ends up on top of the stack). -/
def topoInit (n : Nat) (edges : List (Nat × Nat)) : List Nat :=
  ((List.range n).filter fun x => decide (neighborsIn edges x = [])).reverse

/-- Enough fuel for the loop to drain its stack (see `topoLoop_closure`). -/
def topoFuel (n : Nat) (edges : List (Nat × Nat)) : Nat :=
  n + 1 + n * (edges.length + 1)

/-- The emission order of `Topo` over the whole graph. -/
def topoList (n : Nat) (edges : List (Nat × Nat)) : List Nat :=
  topoLoop edges (topoFuel n edges) (topoInit n edges) []

theorem topoLoop_not_mem_visited (edges : List (Nat × Nat)) :
    ∀ (fuel : Nat) (tv vis : List Nat) (x : Nat),
      x ∈ topoLoop edges fuel tv vis → x ∉ vis := by
  intro fuel
  induction fuel with
  | zero => intro tv vis x hx; simp [topoLoop] at hx
  | succ fuel ih =>
    intro tv vis x hx
    cases tv with
    | nil => simp [topoLoop] at hx
    | cons nix rest =>
      by_cases hmem : nix ∈ vis
      · rw [topoLoop, if_pos hmem] at hx
        exact ih rest vis x hx
      · rw [topoLoop, if_neg hmem] at hx
        rcases List.mem_cons.mp hx with rfl | hx
        · exact hmem
        · intro hxvis
          exact ih _ _ x hx (List.mem_cons_of_mem _ hxvis)

theorem topoLoop_nodup (edges : List (Nat × Nat)) :
    ∀ (fuel : Nat) (tv vis : List Nat), (topoLoop edges fuel tv vis).Nodup := by
  intro fuel
  induction fuel with
  | zero => intro tv vis; simp [topoLoop]
  | succ fuel ih =>
    intro tv vis
    cases tv with
    | nil => simp [topoLoop]
    | cons nix rest =>
      by_cases hmem : nix ∈ vis
      · rw [topoLoop, if_pos hmem]; exact ih rest vis
      · rw [topoLoop, if_neg hmem]
        refine List.nodup_cons.mpr ⟨fun hx => ?_, ih _ _⟩
        exact topoLoop_not_mem_visited edges fuel _ _ nix hx
          (List.mem_cons_self _ _)

theorem topoLoop_lt (edges : List (Nat × Nat)) (n : Nat)
    (hwf : ∀ p ∈ edges, p.2 < n) :
    ∀ (fuel : Nat) (tv vis : List Nat), (∀ x ∈ tv, x < n) →
      ∀ x ∈ topoLoop edges fuel tv vis, x < n := by
  intro fuel
  induction fuel with
  | zero => intro tv vis _ x hx; simp [topoLoop] at hx
  | succ fuel ih =>
    intro tv vis htv x hx
    cases tv with
    | nil => simp [topoLoop] at hx
    | cons nix rest =>
      by_cases hmem : nix ∈ vis
      · rw [topoLoop, if_pos hmem] at hx
        exact ih rest vis (fun y hy => htv y (List.mem_cons_of_mem _ hy)) x hx
      · rw [topoLoop, if_neg hmem] at hx
        rcases List.mem_cons.mp hx with rfl | hx
        · exact htv x (List.mem_cons_self _ _)
        · refine ih _ _ ?_ x hx
          intro y hy
          rcases List.mem_append.mp hy with hy | hy
          · have : y ∈ neighborsOut edges nix :=
              List.mem_of_mem_filter (List.mem_reverse.mp hy)
            exact hwf (nix, y) ((mem_neighborsOut edges nix y).mp this)
          · exact htv y (List.mem_cons_of_mem _ hy)

/-- Emission respects edges: when `v` is emitted, every in-neighbour `u`
of `v` was emitted (or already visited) before. -/
theorem topoLoop_edge_order (edges : List (Nat × Nat)) :
    ∀ (fuel : Nat) (tv vis : List Nat),
      (∀ x ∈ tv, ∀ u, (u, x) ∈ edges → u ∈ vis) →
      ∀ u v, (u, v) ∈ edges → ∀ ys zs,
        topoLoop edges fuel tv vis = ys ++ v :: zs → u ∈ vis ∨ u ∈ ys := by
  intro fuel
  induction fuel with
  | zero =>
    intro tv vis _ u v _ ys zs heq
    rw [topoLoop] at heq
    exact absurd heq.symm (List.append_ne_nil_of_right_ne_nil ys (by simp))
  | succ fuel ih =>
    intro tv vis hQ u v huv ys zs heq
    cases tv with
    | nil =>
      rw [topoLoop] at heq
      exact absurd heq.symm (List.append_ne_nil_of_right_ne_nil ys (by simp))
    | cons nix rest =>
      by_cases hmem : nix ∈ vis
      · rw [topoLoop, if_pos hmem] at heq
        exact ih rest vis
          (fun x hx => hQ x (List.mem_cons_of_mem _ hx)) u v huv ys zs heq
      · rw [topoLoop, if_neg hmem] at heq
        cases ys with
        | nil =>
          simp only [List.nil_append, List.cons.injEq] at heq
          obtain ⟨rfl, -⟩ := heq
          exact Or.inl (hQ nix (List.mem_cons_self _ _) u huv)
        | cons y ys' =>
          simp only [List.cons_append, List.cons.injEq] at heq
          have hQ' : ∀ x ∈ (((neighborsOut edges nix).filter fun m =>
                (neighborsIn edges m).all fun w => decide (w ∈ nix :: vis)).reverse)
              ++ rest, ∀ w, (w, x) ∈ edges → w ∈ nix :: vis := by
            intro x hx w hwx
            rcases List.mem_append.mp hx with hx | hx
            · have := (List.mem_filter.mp (List.mem_reverse.mp hx)).2
              simp only [List.all_eq_true, decide_eq_true_eq] at this
              exact this w ((mem_neighborsIn edges x w).mpr hwx)
            · exact List.mem_cons_of_mem _ (hQ x (List.mem_cons_of_mem _ hx) w hwx)
          rcases ih _ _ hQ' u v huv ys' zs heq.2 with hvis | hys
          · rcases List.mem_cons.mp hvis with rfl | hvis
            · exact Or.inr (heq.1 ▸ List.mem_cons_self _ _)
            · exact Or.inl hvis
          · exact Or.inr (List.mem_cons_of_mem _ hys)

theorem nodup_lt_length_le (l : List Nat) (n : Nat) (hnd : l.Nodup)
    (hlt : ∀ x ∈ l, x < n) : l.length ≤ n := by
  have h1 : l.toFinset ⊆ Finset.range n := fun x hx =>
    Finset.mem_range.mpr (hlt x (List.mem_toFinset.mp hx))
  have h2 : l.toFinset.card = l.length := List.toFinset_card_of_nodup hnd
  have := Finset.card_le_card h1
  simpa [h2] using this

/-- With enough fuel the loop drains its stack, and the set of nodes it
has visited by then (`vis` plus the emitted list) is closed under "all
in-neighbours visited". -/
theorem topoLoop_closure (edges : List (Nat × Nat)) (n : Nat)
    (hwf : ∀ p ∈ edges, p.1 < n ∧ p.2 < n) :
    ∀ (fuel : Nat) (tv vis : List Nat),
      tv.length + (n - vis.length) * (edges.length + 1) + 1 ≤ fuel →
      vis.Nodup → (∀ x ∈ vis, x < n) → (∀ x ∈ tv, x < n) →
      (∀ x, x < n → (∀ u, (u, x) ∈ edges → u ∈ vis) → x ∈ vis ∨ x ∈ tv) →
      ∀ x, x < n →
        (∀ u, (u, x) ∈ edges → u ∈ vis ∨ u ∈ topoLoop edges fuel tv vis) →
        x ∈ vis ∨ x ∈ topoLoop edges fuel tv vis := by
  intro fuel
  induction fuel with
  | zero => intro tv vis hfuel; omega
  | succ fuel ih =>
    intro tv vis hfuel hnd hvlt htvlt hInv x hx hpre
    cases tv with
    | nil =>
      rw [topoLoop]
      rw [topoLoop] at hpre
      refine hInv x hx fun u hu => ?_
      rcases hpre u hu with h | h
      · exact h
      · simp at h
    | cons nix rest =>
      by_cases hmem : nix ∈ vis
      · rw [topoLoop, if_pos hmem]
        rw [topoLoop, if_pos hmem] at hpre
        have hfuel' : rest.length + (n - vis.length) * (edges.length + 1) + 1 ≤
            fuel := by
          simp only [List.length_cons] at hfuel; omega
        refine ih rest vis hfuel' hnd hvlt
          (fun y hy => htvlt y (List.mem_cons_of_mem _ hy)) ?_ x hx hpre
        intro y hy hyin
        rcases hInv y hy hyin with h | h
        · exact Or.inl h
        · rcases List.mem_cons.mp h with rfl | h
          · exact Or.inl hmem
          · exact Or.inr h
      · rw [topoLoop, if_neg hmem]
        rw [topoLoop, if_neg hmem] at hpre
        -- the freshly emitted node and the new state
        have hnixlt : nix < n := htvlt nix (List.mem_cons_self _ _)
        have hnd' : (nix :: vis).Nodup := List.nodup_cons.mpr ⟨hmem, hnd⟩
        have hvlt' : ∀ y ∈ nix :: vis, y < n := by
          intro y hy
          rcases List.mem_cons.mp hy with rfl | hy
          · exact hnixlt
          · exact hvlt y hy
        have hvcard : vis.length + 1 ≤ n :=
          nodup_lt_length_le (nix :: vis) n hnd' hvlt'
        have hplen : ((neighborsOut edges nix).filter fun m =>
            (neighborsIn edges m).all fun w => decide (w ∈ nix :: vis)).length ≤
              edges.length :=
          Nat.le_trans (List.length_filter_le _ _) (neighborsOut_length_le edges nix)
        have hfuel' : ((((neighborsOut edges nix).filter fun m =>
              (neighborsIn edges m).all fun w => decide (w ∈ nix :: vis)).reverse)
              ++ rest).length +
            (n - (nix :: vis).length) * (edges.length + 1) + 1 ≤ fuel := by
          have hsplit : (n - vis.length) * (edges.length + 1) =
              (n - (vis.length + 1)) * (edges.length + 1) + (edges.length + 1) := by
            rw [show n - vis.length = (n - (vis.length + 1)) + 1 from by omega,
              Nat.add_mul, Nat.one_mul]
          simp only [List.length_append, List.length_reverse, List.length_cons]
            at hfuel ⊢
          omega
        have htvlt' : ∀ y ∈ (((neighborsOut edges nix).filter fun m =>
              (neighborsIn edges m).all fun w => decide (w ∈ nix :: vis)).reverse)
              ++ rest, y < n := by
          intro y hy
          rcases List.mem_append.mp hy with hy | hy
          · have : y ∈ neighborsOut edges nix :=
              List.mem_of_mem_filter (List.mem_reverse.mp hy)
            exact (hwf (nix, y) ((mem_neighborsOut edges nix y).mp this)).2
          · exact htvlt y (List.mem_cons_of_mem _ hy)
        have hInv' : ∀ y, y < n → (∀ u, (u, y) ∈ edges → u ∈ nix :: vis) →
            y ∈ nix :: vis ∨
              y ∈ (((neighborsOut edges nix).filter fun m =>
                  (neighborsIn edges m).all fun w => decide (w ∈ nix :: vis)).reverse)
                ++ rest := by
          intro y hy hyin
          by_cases hynix : (nix, y) ∈ edges
          · refine Or.inr (List.mem_append.mpr (Or.inl ?_))
            rw [List.mem_reverse]
            refine List.mem_filter.mpr ⟨(mem_neighborsOut edges nix y).mpr hynix, ?_⟩
            simp only [List.all_eq_true, decide_eq_true_eq]
            intro w hw
            exact hyin w ((mem_neighborsIn edges y w).mp hw)
          · have hold : ∀ u, (u, y) ∈ edges → u ∈ vis := by
              intro u hu
              rcases List.mem_cons.mp (hyin u hu) with rfl | h
              · exact absurd hu hynix
              · exact h
            rcases hInv y hy hold with h | h
            · exact Or.inl (List.mem_cons_of_mem _ h)
            · rcases List.mem_cons.mp h with rfl | h
              · exact Or.inl (List.mem_cons_self _ _)
              · exact Or.inr (List.mem_append.mpr (Or.inr h))
        have hpre' : ∀ u, (u, x) ∈ edges → u ∈ nix :: vis ∨
            u ∈ topoLoop edges fuel
              ((((neighborsOut edges nix).filter fun m =>
                  (neighborsIn edges m).all fun w => decide (w ∈ nix :: vis)).reverse)
                ++ rest) (nix :: vis) := by
          intro u hu
          rcases hpre u hu with h | h
          · exact Or.inl (List.mem_cons_of_mem _ h)
          · rcases List.mem_cons.mp h with rfl | h
            · exact Or.inl (List.mem_cons_self _ _)
            · exact Or.inr h
        rcases ih _ _ hfuel' hnd' hvlt' htvlt' hInv' x hx hpre' with h | h
        · rcases List.mem_cons.mp h with rfl | h
          · exact Or.inr (List.mem_cons_self _ _)
          · exact Or.inl h
        · exact Or.inr (List.mem_cons_of_mem _ h)

theorem topoInit_lt (n : Nat) (edges : List (Nat × Nat)) :
    ∀ x ∈ topoInit n edges, x < n := by
  intro x hx
  have := List.mem_of_mem_filter (List.mem_reverse.mp hx)
  exact List.mem_range.mp this

theorem topoInit_no_in (n : Nat) (edges : List (Nat × Nat)) :
    ∀ x ∈ topoInit n edges, ∀ u, (u, x) ∈ edges → False := by
  intro x hx u hu
  have := (List.mem_filter.mp (List.mem_reverse.mp hx)).2
  rw [decide_eq_true_eq] at this
  have : u ∈ neighborsIn edges x := (mem_neighborsIn edges x u).mpr hu
  rw [‹neighborsIn edges x = []›] at this
  simp at this

theorem mem_topoInit (n : Nat) (edges : List (Nat × Nat)) (x : Nat)
    (hx : x < n) (hno : ∀ u, (u, x) ∈ edges → False) : x ∈ topoInit n edges := by
  rw [topoInit, List.mem_reverse]
  refine List.mem_filter.mpr ⟨List.mem_range.mpr hx, ?_⟩
  rw [decide_eq_true_eq, List.eq_nil_iff_forall_not_mem]
  intro u hu
  exact hno u ((mem_neighborsIn edges x u).mp hu)

/-- On an acyclic graph the traversal emits every node. -/
theorem topoList_complete (n : Nat) (edges : List (Nat × Nat))
    (hwf : ∀ p ∈ edges, p.1 < n ∧ p.2 < n) (hacy : Acyclic edges) :
    ∀ x, x < n → x ∈ topoList n edges := by
  have hCL : ∀ x, x < n → (∀ u, (u, x) ∈ edges → u ∈ topoList n edges) →
      x ∈ topoList n edges := by
    intro x hx hpre
    have hinitlen : (topoInit n edges).length ≤ n := by
      have : ((List.range n).filter
          fun x => decide (neighborsIn edges x = [])).length ≤ n := by
        simpa using List.length_filter_le _ (List.range n)
      simpa [topoInit] using this
    have hfuel : (topoInit n edges).length +
        (n - ([] : List Nat).length) * (edges.length + 1) + 1 ≤
          topoFuel n edges := by
      simp only [List.length_nil, Nat.sub_zero, topoFuel]
      omega
    have hInv₀ : ∀ y, y < n → (∀ u, (u, y) ∈ edges → u ∈ ([] : List Nat)) →
        y ∈ ([] : List Nat) ∨ y ∈ topoInit n edges := by
      intro y hy hyin
      exact Or.inr (mem_topoInit n edges y hy fun u hu => by simpa using hyin u hu)
    have := topoLoop_closure edges n hwf (topoFuel n edges) (topoInit n edges) []
      hfuel (by simp) (by simp) (topoInit_lt n edges) hInv₀ x hx
      (fun u hu => Or.inr (hpre u hu))
    rcases this with h | h
    · simp at h
    · exact h
  intro x hx
  by_contra hxout
  classical
  have hSne : ((Finset.range n).filter fun y => y ∉ topoList n edges).Nonempty :=
    ⟨x, Finset.mem_filter.mpr ⟨Finset.mem_range.mpr hx, hxout⟩⟩
  obtain ⟨z, hzS, hzmin⟩ := acyclic_exists_source n edges hacy
    (fun p hp => (hwf p hp).1)
    ((Finset.range n).filter fun y => y ∉ topoList n edges) hSne
    (fun y hy => Finset.mem_range.mp (Finset.mem_filter.mp hy).1)
  rcases Finset.mem_filter.mp hzS with ⟨hzr, hzout⟩
  refine hzout (hCL z (Finset.mem_range.mp hzr) fun u hu => ?_)
  have hun : u < n := (hwf (u, z) hu).1
  have := hzmin u hu
  by_contra huout
  exact this (Finset.mem_filter.mpr ⟨Finset.mem_range.mpr hun, huout⟩)

/-- On an acyclic graph the traversal emits each node exactly once: its
output is a permutation of the node indices. -/
theorem topoList_perm_range (n : Nat) (edges : List (Nat × Nat))
    (hwf : ∀ p ∈ edges, p.1 < n ∧ p.2 < n) (hacy : Acyclic edges) :
    (topoList n edges).Perm (List.range n) := by
  refine List.perm_of_nodup_nodup_toFinset_eq
    (topoLoop_nodup edges _ _ _) (List.nodup_range n) ?_
  ext y
  simp only [List.mem_toFinset, List.mem_range]
  constructor
  · intro hy
    exact topoLoop_lt edges n (fun p hp => (hwf p hp).2) _ _ _
      (topoInit_lt n edges) y hy
  · intro hy
    exact topoList_complete n edges hwf hacy y hy

/-- Every edge is respected by the emission order of the traversal. -/
theorem topoList_edge_order (n : Nat) (edges : List (Nat × Nat))
    (u v : Nat) (huv : (u, v) ∈ edges) (ys zs : List Nat)
    (heq : topoList n edges = ys ++ v :: zs) : u ∈ ys := by
  have hQ : ∀ x ∈ topoInit n edges, ∀ w, (w, x) ∈ edges → w ∈ ([] : List Nat) :=
    fun x hx w hw => absurd hw fun h => topoInit_no_in n edges x hx w h
  rcases topoLoop_edge_order edges (topoFuel n edges) (topoInit n edges) [] hQ
      u v huv ys zs heq with h | h
  · simp at h
  · exact h

end Topo

/-! ## `causal_sort` (src/src/lib.rs:24-69)

The fold of the source threads three pieces of state: the `daggy::Dag`
(node count plus edge list — node weights are the constant `1` and carry
no information), the `HashMap<Multihash, NodeIndex>` and the
`HashMap<NodeIndex, K>`.  Both maps are used only through
`entry().or_insert` and `get`, so insertion-ordered association lists are
a faithful model.  `dag.add_edge(..).expect(..)` panics when the edge
would close a cycle; the embedding returns `none` for that panic — the
Rust return type `Vec<K>` has no error channel. -/

/-- The fold state of `causal_sort`: the dag (`nodeCount`, `edges`), the
`Multihash → NodeIndex` map and the `NodeIndex → CallerKey` map. -/
structure BuildState (M K : Type) where
  nodeCount : Nat
  edges : List (Nat × Nat)
  hashToNode : List (M × Nat)
  nodeToKey : List (Nat × K)

section Build

variable {M K : Type} [DecidableEq M]

/-- `hash_to_node.entry(key).or_insert_with(|| dag.add_node(1))`:
look the identifier up, lazily adding a fresh node (`Dag::add_node`
returns the next free index).  Returns the node and the updated state. -/
def orInsertNode (st : BuildState M K) (k : M) : Nat × BuildState M K :=
  match alookup st.hashToNode k with
  | some nd => (nd, st)
  | none =>
    (st.nodeCount,
      { st with
        nodeCount := st.nodeCount + 1
        hashToNode := st.hashToNode ++ [(k, st.nodeCount)] })

/-- `node_to_key_id.entry(key_node).or_insert(*key_id)`: first writer
wins. -/
def orInsertKey (st : BuildState M K) (nd : Nat) (k : K) : BuildState M K :=
  match alookup st.nodeToKey nd with
  | some _ => st
  | none => { st with nodeToKey := st.nodeToKey ++ [(nd, k)] }

/-- `Dag::add_edge(a, b, 1)`: refuse the edge when the graph together
with it is cyclic.  On the acyclic graphs maintained by `Dag` that is
exactly "`b` already reaches `a`", which `reachB` with fuel
`edges.length` decides (`reachB_iff_rtg`).  `none` is `Err(WouldCycle)`,
which `causal_sort` turns into a panic via `expect`. -/
def add_edge (st : BuildState M K) (a b : Nat) : Option (BuildState M K) :=
  if reachB st.edges st.edges.length b a then none
  else some { st with edges := st.edges ++ [(a, b)] }

/-- The `refs.iter().for_each(..)` loop: register each reference node and
add the edge from the message's node to it; a `WouldCycle` error aborts
everything (the source panics). -/
def addRefEdges (st : BuildState M K) (keyNode : Nat) :
    List M → Option (BuildState M K)
  | [] => some st
  | r :: rs =>
    let p := orInsertNode st r
    match add_edge p.2 keyNode p.1 with
    | none => none
    | some st2 => addRefEdges st2 keyNode rs

variable (parseJson : String → Option Value) (parseId : String → Option M)

/-- Step 1 of `causal_sort` for one message:
`serde_json::from_str(msg).unwrap_or(Value::Null)` followed by
`find_all_links`. -/
def refsOfBody (body : String) : List M :=
  find_all_links parseId ((parseJson body).getD Value.null)

/-- The fold of `causal_sort` over the input messages, with the panic of
the `expect` on `add_edge` modelled as `none`. -/
def buildDag : List (M × K × String) → BuildState M K → Option (BuildState M K)
  | [], st => some st
  | (key, keyId, msg) :: rest, st =>
    let p := orInsertNode st key
    let st2 := orInsertKey p.2 p.1 keyId
    match addRefEdges st2 p.1 (refsOfBody parseJson parseId msg) with
    | none => none
    | some st3 => buildDag rest st3

/-- The empty fold state (`Dag::new()` and two empty maps). -/
def initialState : BuildState M K := ⟨0, [], [], []⟩

/-- Embedding of `causal_sort` (src/src/lib.rs:24-69): build the dag,
then emit the topological traversal, filter-mapped through the
node-to-caller-key map.  `none` models the panic on a cyclic reference
graph; the Rust signature (`Vec<K>`) has no error channel. -/
def causal_sort (msgs : List (M × K × String)) : Option (List K) :=
  match buildDag parseJson parseId msgs initialState with
  | none => none
  | some st =>
    some ((topoList st.nodeCount st.edges).filterMap fun nd =>
      alookup st.nodeToKey nd)

/-- All identifiers in encounter order: each message contributes its own
identifier followed by its references. -/
def idSeq (msgs : List (M × K × String)) : List M :=
  msgs.flatMap fun m => m.1 :: refsOfBody parseJson parseId m.2.2

/-- The reference graph of the input at the identifier level: one pair
per extracted reference, in extraction order. -/
def refPairs (msgs : List (M × K × String)) : List (M × M) :=
  msgs.flatMap fun m => (refsOfBody parseJson parseId m.2.2).map fun r => (m.1, r)

end Build

section Dedup

variable {M K : Type} [DecidableEq M]

/-- The first input entry carrying a given identifier. -/
def firstEntry (msgs : List (M × K × String)) (id : M) : Option (M × K × String) :=
  msgs.find? fun e => decide (e.1 = id)

/-- Helper for `dedupByFirst`: drop every entry whose identifier was
already seen. -/
def dedupByFirstAux (seen : List M) : List (M × K × String) →
    List (M × K × String)
  | [] => []
  | e :: l =>
    if e.1 ∈ seen then dedupByFirstAux seen l
    else e :: dedupByFirstAux (e.1 :: seen) l

/-- The input restricted to the first entry of each distinct identifier,
in order of first occurrence. -/
def dedupByFirst (l : List (M × K × String)) : List (M × K × String) :=
  dedupByFirstAux [] l

theorem dedupByFirstAux_subset :
    ∀ (l : List (M × K × String)) (seen : List M) (e : M × K × String),
      e ∈ dedupByFirstAux seen l → e ∈ l := by
  intro l
  induction l with
  | nil => intro seen e h; simp [dedupByFirstAux] at h
  | cons d l ih =>
    intro seen e h
    by_cases hd : d.1 ∈ seen
    · rw [dedupByFirstAux, if_pos hd] at h
      exact List.mem_cons_of_mem _ (ih seen e h)
    · rw [dedupByFirstAux, if_neg hd] at h
      rcases List.mem_cons.mp h with rfl | h
      · exact List.mem_cons_self _ _
      · exact List.mem_cons_of_mem _ (ih _ e h)

theorem mem_ids_dedupByFirstAux :
    ∀ (l : List (M × K × String)) (seen : List M) (m : M),
      (m ∈ (dedupByFirstAux seen l).map fun e => e.1) ↔
        m ∉ seen ∧ m ∈ l.map fun e => e.1 := by
  intro l
  induction l with
  | nil => intro seen m; simp [dedupByFirstAux]
  | cons d l ih =>
    intro seen m
    by_cases hd : d.1 ∈ seen
    · rw [dedupByFirstAux, if_pos hd, ih]
      simp only [List.map_cons, List.mem_cons]
      constructor
      · rintro ⟨h1, h2⟩; exact ⟨h1, Or.inr h2⟩
      · rintro ⟨h1, h2 | h2⟩
        · subst h2; exact absurd hd h1
        · exact ⟨h1, h2⟩
    · rw [dedupByFirstAux, if_neg hd]
      simp only [List.map_cons, List.mem_cons, ih, List.mem_cons]
      constructor
      · rintro (rfl | ⟨h1, h2⟩)
        · exact ⟨hd, Or.inl rfl⟩
        · exact ⟨fun hm => h1 (Or.inr hm), Or.inr h2⟩
      · rintro ⟨h1, rfl | h2⟩
        · exact Or.inl rfl
        · by_cases hmd : m = d.1
          · exact Or.inl hmd
          · exact Or.inr ⟨by simp [hmd, h1], h2⟩

theorem ids_dedupByFirstAux_nodup :
    ∀ (l : List (M × K × String)) (seen : List M),
      ((dedupByFirstAux seen l).map fun e => e.1).Nodup := by
  intro l
  induction l with
  | nil => intro seen; simp [dedupByFirstAux]
  | cons d l ih =>
    intro seen
    by_cases hd : d.1 ∈ seen
    · rw [dedupByFirstAux, if_pos hd]; exact ih seen
    · rw [dedupByFirstAux, if_neg hd]
      simp only [List.map_cons, List.nodup_cons]
      refine ⟨fun hmem => ?_, ih _⟩
      exact ((mem_ids_dedupByFirstAux l (d.1 :: seen) d.1).mp hmem).1
        (List.mem_cons_self _ _)

theorem dedupByFirstAux_snoc :
    ∀ (l : List (M × K × String)) (seen : List M) (e : M × K × String),
      dedupByFirstAux seen (l ++ [e]) =
        dedupByFirstAux seen l ++
          (if e.1 ∈ seen ∨ e.1 ∈ l.map (fun x => x.1) then [] else [e]) := by
  intro l
  induction l with
  | nil =>
    intro seen e
    by_cases he : e.1 ∈ seen
    · simp [dedupByFirstAux, he]
    · simp [dedupByFirstAux, he]
  | cons d l ih =>
    intro seen e
    by_cases hd : d.1 ∈ seen
    · rw [List.cons_append, dedupByFirstAux, if_pos hd, dedupByFirstAux,
        if_pos hd, ih]
      by_cases he : e.1 ∈ seen ∨ e.1 ∈ l.map fun x => x.1
      · rw [if_pos he, if_pos]
        rcases he with he | he
        · exact Or.inl he
        · exact Or.inr (by simp [he])
      · rw [if_neg he, if_neg]
        intro hc
        rcases hc with hc | hc
        · exact he (Or.inl hc)
        · simp only [List.map_cons, List.mem_cons] at hc
          rcases hc with hc | hc
          · exact he (Or.inl (hc ▸ hd))
          · exact he (Or.inr hc)
    · rw [List.cons_append, dedupByFirstAux, if_neg hd, dedupByFirstAux,
        if_neg hd, ih, List.cons_append]
      by_cases he : e.1 ∈ d.1 :: seen ∨ e.1 ∈ l.map fun x => x.1
      · rw [if_pos he, if_pos]
        rcases he with he | he
        · rcases List.mem_cons.mp he with he | he
          · exact Or.inr (by simp [he])
          · exact Or.inl he
        · exact Or.inr (by simp [he])
      · rw [if_neg he, if_neg]
        intro hc
        rcases hc with hc | hc
        · exact he (Or.inl (List.mem_cons_of_mem _ hc))
        · simp only [List.map_cons, List.mem_cons] at hc
          rcases hc with hc | hc
          · exact he (Or.inl (by simp [hc]))
          · exact he (Or.inr hc)

theorem dedupByFirst_snoc_mem (l : List (M × K × String)) (e : M × K × String)
    (h : e.1 ∈ l.map fun x => x.1) :
    dedupByFirst (l ++ [e]) = dedupByFirst l := by
  rw [dedupByFirst, dedupByFirst, dedupByFirstAux_snoc]
  rw [if_pos (Or.inr h)]
  simp

theorem dedupByFirst_snoc_not_mem (l : List (M × K × String))
    (e : M × K × String) (h : e.1 ∉ l.map fun x => x.1) :
    dedupByFirst (l ++ [e]) = dedupByFirst l ++ [e] := by
  rw [dedupByFirst, dedupByFirst, dedupByFirstAux_snoc]
  rw [if_neg (by simp [h])]

theorem dedupByFirstAux_firstEntry :
    ∀ (l : List (M × K × String)) (seen : List M) (e : M × K × String),
      e ∈ dedupByFirstAux seen l →
        e.1 ∉ seen ∧ firstEntry l e.1 = some e := by
  intro l
  induction l with
  | nil => intro seen e h; simp [dedupByFirstAux] at h
  | cons d l ih =>
    intro seen e h
    by_cases hd : d.1 ∈ seen
    · rw [dedupByFirstAux, if_pos hd] at h
      obtain ⟨h1, h2⟩ := ih seen e h
      refine ⟨h1, ?_⟩
      rw [firstEntry, List.find?]
      have hne : d.1 ≠ e.1 := fun hc => h1 (hc ▸ hd)
      rw [decide_eq_false hne]
      exact h2
    · rw [dedupByFirstAux, if_neg hd] at h
      rcases List.mem_cons.mp h with rfl | h
      · refine ⟨hd, ?_⟩
        rw [firstEntry, List.find?, decide_eq_true rfl]
      · obtain ⟨h1, h2⟩ := ih _ e h
        have hne : d.1 ≠ e.1 := fun hc => h1 (by simp [hc])
        refine ⟨fun hc => h1 (List.mem_cons_of_mem _ hc), ?_⟩
        rw [firstEntry, List.find?, decide_eq_false hne]
        exact h2

theorem firstEntry_mem_dedupByFirstAux :
    ∀ (l : List (M × K × String)) (seen : List M) (id : M)
      (e : M × K × String), firstEntry l id = some e → id ∉ seen →
        e ∈ dedupByFirstAux seen l := by
  intro l
  induction l with
  | nil => intro seen id e h; simp [firstEntry] at h
  | cons d l ih =>
    intro seen id e h hid
    rw [firstEntry, List.find?] at h
    by_cases hd : d.1 = id
    · rw [decide_eq_true hd] at h
      injection h with h
      subst h
      rw [dedupByFirstAux, if_neg (hd ▸ hid)]
      exact List.mem_cons_self _ _
    · rw [decide_eq_false hd] at h
      by_cases hds : d.1 ∈ seen
      · rw [dedupByFirstAux, if_pos hds]
        exact ih seen id e h hid
      · rw [dedupByFirstAux, if_neg hds]
        refine List.mem_cons_of_mem _ (ih _ id e h ?_)
        simp only [List.mem_cons]
        rintro (hc | hc)
        · exact hd hc.symm
        · exact hid hc

/-- The first entry of an identifier is what `dedupByFirst` keeps. -/
theorem firstEntry_mem_dedupByFirst (l : List (M × K × String)) (id : M)
    (e : M × K × String) (h : firstEntry l id = some e) :
    e ∈ dedupByFirst l :=
  firstEntry_mem_dedupByFirstAux l [] id e h (by simp)

theorem firstEntry_id (l : List (M × K × String)) (id : M)
    (e : M × K × String) (h : firstEntry l id = some e) : e.1 = id := by
  have := List.find?_some h
  simpa using this

theorem firstEntry_isSome (l : List (M × K × String)) (id : M)
    (h : id ∈ l.map fun x => x.1) : (firstEntry l id).isSome := by
  induction l with
  | nil => simp at h
  | cons d l ih =>
    rw [firstEntry, List.find?]
    by_cases hd : d.1 = id
    · rw [decide_eq_true hd]; rfl
    · rw [decide_eq_false hd]
      refine ih ?_
      simp only [List.map_cons, List.mem_cons] at h
      rcases h with h | h
      · exact absurd h.symm hd
      · exact h

end Dedup

/-! ## Invariants of the construction -/

section BuildLemmas

theorem forall₂_mem_right {α β : Type} {R : α → β → Prop} :
    ∀ {l₁ : List α} {l₂ : List β}, List.Forall₂ R l₁ l₂ →
      ∀ y ∈ l₂, ∃ x ∈ l₁, R x y := by
  intro l₁ l₂ h
  induction h with
  | nil => intro y hy; simp at hy
  | cons hR _ ih =>
    intro y hy
    rcases List.mem_cons.mp hy with rfl | hy
    · exact ⟨_, List.mem_cons_self _ _, hR⟩
    · obtain ⟨x, hx, hxy⟩ := ih y hy
      exact ⟨x, List.mem_cons_of_mem _ hx, hxy⟩

theorem forall₂_mem_left {α β : Type} {R : α → β → Prop} :
    ∀ {l₁ : List α} {l₂ : List β}, List.Forall₂ R l₁ l₂ →
      ∀ x ∈ l₁, ∃ y ∈ l₂, R x y := by
  intro l₁ l₂ h
  induction h with
  | nil => intro x hx; simp at hx
  | cons hR _ ih =>
    intro x hx
    rcases List.mem_cons.mp hx with rfl | hx
    · exact ⟨_, List.mem_cons_self _ _, hR⟩
    · obtain ⟨y, hy, hxy⟩ := ih x hx
      exact ⟨y, List.mem_cons_of_mem _ hy, hxy⟩

theorem forall₂_imp {α β : Type} {R S : α → β → Prop}
    (h : ∀ a b, R a b → S a b) :
    ∀ {l₁ : List α} {l₂ : List β}, List.Forall₂ R l₁ l₂ → List.Forall₂ S l₁ l₂ := by
  intro l₁ l₂ hf
  induction hf with
  | nil => exact List.Forall₂.nil
  | cons hR _ ih => exact List.Forall₂.cons (h _ _ hR) ih

variable {M K : Type} [DecidableEq M]

theorem eq_of_snd_nodup :
    ∀ (l : List (M × Nat)), (l.map Prod.snd).Nodup →
      ∀ (m₁ m₂ : M) (v : Nat), (m₁, v) ∈ l → (m₂, v) ∈ l → m₁ = m₂ := by
  intro l
  induction l with
  | nil => intro _ m₁ m₂ v h; simp at h
  | cons p l ih =>
    intro hnd m₁ m₂ v h₁ h₂
    obtain ⟨a, b⟩ := p
    rw [List.map_cons] at hnd
    have hnotin : b ∉ l.map Prod.snd := (List.nodup_cons.mp hnd).1
    have hnd' : (l.map Prod.snd).Nodup := (List.nodup_cons.mp hnd).2
    rcases List.mem_cons.mp h₁ with h₁ | h₁ <;>
      rcases List.mem_cons.mp h₂ with h₂ | h₂
    · injection h₁ with e₁ _; injection h₂ with e₂ _
      rw [e₁, e₂]
    · injection h₁ with e₁ e₁'
      exact absurd (List.mem_map.mpr ⟨(m₂, v), h₂, e₁'⟩) hnotin
    · injection h₂ with e₂ e₂'
      exact absurd (List.mem_map.mpr ⟨(m₁, v), h₁, e₂'⟩) hnotin
    · exact ih hnd' m₁ m₂ v h₁ h₂

/-- Node indices determine identifiers: the node column of the
identifier map is duplicate-free. -/
theorem alookup_node_inj (h2n : List (M × Nat))
    (hnd : (h2n.map Prod.snd).Nodup) (m₁ m₂ : M) (nd : Nat)
    (h₁ : alookup h2n m₁ = some nd) (h₂ : alookup h2n m₂ = some nd) : m₁ = m₂ :=
  eq_of_snd_nodup h2n hnd m₁ m₂ nd (alookup_mem _ _ _ h₁) (alookup_mem _ _ _ h₂)

/-- Appending entries never changes an existing binding. -/
theorem alookup_extend {β : Type} (l ext : List (M × β)) (x : M) (v : β)
    (h : alookup l x = some v) : alookup (l ++ ext) x = some v := by
  rw [alookup_append, h]

theorem orInsertNode_cases (st : BuildState M K) (k : M) :
    (alookup st.hashToNode k = some (orInsertNode st k).1 ∧
      (orInsertNode st k).2 = st) ∨
    (alookup st.hashToNode k = none ∧ (orInsertNode st k).1 = st.nodeCount ∧
      (orInsertNode st k).2 =
        { st with
          nodeCount := st.nodeCount + 1
          hashToNode := st.hashToNode ++ [(k, st.nodeCount)] }) := by
  rcases h : alookup st.hashToNode k with _ | nd
  · exact Or.inr ⟨rfl, by simp [orInsertNode, h], by simp [orInsertNode, h]⟩
  · exact Or.inl ⟨by simp [orInsertNode, h], by simp [orInsertNode, h]⟩

theorem orInsertKey_cases (st : BuildState M K) (nd : Nat) (k : K) :
    ((alookup st.nodeToKey nd).isSome ∧ orInsertKey st nd k = st) ∨
    (alookup st.nodeToKey nd = none ∧
      orInsertKey st nd k = { st with nodeToKey := st.nodeToKey ++ [(nd, k)] }) := by
  rcases h : alookup st.nodeToKey nd with _ | k'
  · exact Or.inr ⟨rfl, by simp [orInsertKey, h]⟩
  · refine Or.inl ⟨?_, ?_⟩
    · rfl
    · simp [orInsertKey, h]

theorem add_edge_none_iff (st : BuildState M K) (a b : Nat) :
    add_edge st a b = none ↔
      Relation.ReflTransGen (EdgeRel st.edges) b a := by
  rw [add_edge]
  rcases h : reachB st.edges st.edges.length b a with _ | _
  · simp only [Bool.false_eq_true, if_false]
    constructor
    · intro hc; cases hc
    · intro hr
      exact absurd ((reachB_iff_rtg st.edges b a).mpr hr) (by simp [h])
  · rw [if_pos rfl]
    exact ⟨fun _ => (reachB_iff_rtg st.edges b a).mp h, fun _ => rfl⟩

theorem add_edge_some (st : BuildState M K) (a b : Nat) (st' : BuildState M K)
    (h : add_edge st a b = some st') :
    ¬ Relation.ReflTransGen (EdgeRel st.edges) b a ∧
      st' = { st with edges := st.edges ++ [(a, b)] } := by
  rw [add_edge] at h
  rcases hr : reachB st.edges st.edges.length b a with _ | _
  · rw [hr] at h
    simp only [Bool.false_eq_true, if_false, Option.some.injEq] at h
    exact ⟨fun hc => by simp [(reachB_iff_rtg st.edges b a).mpr hc] at hr, h.symm⟩
  · rw [hr] at h
    simp at h

theorem nodup_append_singleton {γ : Type} (l : List γ) (x : γ)
    (hnd : l.Nodup) (hx : x ∉ l) : (l ++ [x]).Nodup := by
  rw [List.nodup_append]
  exact ⟨hnd, List.nodup_singleton x, by simpa [List.disjoint_singleton] using hx⟩

theorem not_acyclic_mono {α : Type} [DecidableEq α] {l l' : List (α × α)}
    (hsub : ∀ p ∈ l, p ∈ l') (h : ¬ Acyclic l) : ¬ Acyclic l' := by
  intro hacy
  refine h fun p hp hr => ?_
  exact hacy p (hsub p hp) (rtg_mono_subset hsub hr)

/-- The pointwise correspondence between an identifier-level pair and a
node-level edge through the identifier map. -/
def EdgeCorr (h2n : List (M × Nat)) (p : M × M) (e : Nat × Nat) : Prop :=
  alookup h2n p.1 = some e.1 ∧ alookup h2n p.2 = some e.2

/-- The pointwise correspondence between an input entry and a
node-to-caller-key binding. -/
def KeyCorr (h2n : List (M × Nat)) (e : M × K × String) (q : Nat × K) : Prop :=
  alookup h2n e.1 = some q.1 ∧ q.2 = e.2.1

theorem edgeCorr_stable {h2n h2n' : List (M × Nat)}
    (hst : ∀ m v, alookup h2n m = some v → alookup h2n' m = some v)
    (p : M × M) (e : Nat × Nat) (h : EdgeCorr h2n p e) : EdgeCorr h2n' p e :=
  ⟨hst _ _ h.1, hst _ _ h.2⟩

theorem keyCorr_stable {h2n h2n' : List (M × Nat)}
    (hst : ∀ m v, alookup h2n m = some v → alookup h2n' m = some v)
    (e : M × K × String) (q : Nat × K) (h : KeyCorr h2n e q) :
    KeyCorr h2n' e q :=
  ⟨hst _ _ h.1, h.2⟩

/-- Node-level paths project to identifier-level paths through the
(injective) identifier map. -/
theorem rtg_down (h2n : List (M × Nat)) (hnd : (h2n.map Prod.snd).Nodup)
    (rp : List (M × M)) (edges : List (Nat × Nat))
    (hcorr : List.Forall₂ (EdgeCorr h2n) rp edges) :
    ∀ (na nb : Nat), Relation.ReflTransGen (EdgeRel edges) na nb →
      ∀ a : M, alookup h2n a = some na →
        ∃ b : M, alookup h2n b = some nb ∧
          Relation.ReflTransGen (EdgeRel rp) a b := by
  intro na nb h
  induction h using Relation.ReflTransGen.head_induction_on with
  | refl => intro a ha; exact ⟨a, ha, Relation.ReflTransGen.refl⟩
  | @head u v hstep _ ih =>
    intro a ha
    obtain ⟨p, hp, hcp⟩ := forall₂_mem_right hcorr (u, v) hstep
    have hpa : p.1 = a := alookup_node_inj h2n hnd p.1 a u hcp.1 ha
    obtain ⟨b, hb, hrtg⟩ := ih p.2 hcp.2
    have hstep' : (a, p.2) ∈ rp := by
      have hp' : (p.1, p.2) ∈ rp := hp
      rwa [hpa] at hp'
    exact ⟨b, hb, Relation.ReflTransGen.head hstep' hrtg⟩

/-- Identifier-level paths lift to node-level paths through the
identifier map. -/
theorem rtg_up (h2n : List (M × Nat)) (rp : List (M × M))
    (edges : List (Nat × Nat))
    (hcorr : List.Forall₂ (EdgeCorr h2n) rp edges) :
    ∀ (a b : M), Relation.ReflTransGen (EdgeRel rp) a b →
      ∀ na : Nat, alookup h2n a = some na →
        ∃ nb : Nat, alookup h2n b = some nb ∧
          Relation.ReflTransGen (EdgeRel edges) na nb := by
  intro a b h
  induction h using Relation.ReflTransGen.head_induction_on with
  | refl => intro na ha; exact ⟨na, ha, Relation.ReflTransGen.refl⟩
  | @head u v hstep _ ih =>
    intro na ha
    obtain ⟨e, he, hce⟩ := forall₂_mem_left hcorr (u, v) hstep
    have he1 : e.1 = na := by
      have := hce.1
      rw [ha] at this
      exact (Option.some.injEq _ _ ▸ this).symm
    obtain ⟨nb, hnb, hrtg⟩ := ih e.2 hce.2
    have hstep' : (na, e.2) ∈ edges := by
      have he' : (e.1, e.2) ∈ edges := he
      rwa [he1] at he'
    exact ⟨nb, hnb, Relation.ReflTransGen.head hstep' hrtg⟩

/-- Everything `hash_to_node.entry(k).or_insert_with(|| dag.add_node(1))`
guarantees: the returned node is bound to `k`, the edge list and key map
are untouched, the map stays an enumeration with duplicate-free
identifiers, existing bindings survive, and the domain grows by `k`. -/
theorem orInsertNode_spec (st : BuildState M K) (k : M)
    (hrange : st.hashToNode.map Prod.snd = List.range st.nodeCount)
    (hnodup : (st.hashToNode.map Prod.fst).Nodup) :
    alookup (orInsertNode st k).2.hashToNode k = some (orInsertNode st k).1 ∧
    (orInsertNode st k).2.edges = st.edges ∧
    (orInsertNode st k).2.nodeToKey = st.nodeToKey ∧
    (orInsertNode st k).2.hashToNode.map Prod.snd =
      List.range (orInsertNode st k).2.nodeCount ∧
    ((orInsertNode st k).2.hashToNode.map Prod.fst).Nodup ∧
    (∀ m v, alookup st.hashToNode m = some v →
      alookup (orInsertNode st k).2.hashToNode m = some v) ∧
    (∀ m, (alookup (orInsertNode st k).2.hashToNode m).isSome ↔
      (alookup st.hashToNode m).isSome ∨ m = k) := by
  rcases orInsertNode_cases st k with ⟨hlk, hst⟩ | ⟨hlk, hnd, hst⟩
  · rw [hst]
    refine ⟨hlk, rfl, rfl, hrange, hnodup, fun _ _ h => h, fun m => ?_⟩
    constructor
    · exact fun h => Or.inl h
    · rintro (h | rfl)
      · exact h
      · rw [hlk]; rfl
  · rw [hst, hnd]
    have hknotin : k ∉ st.hashToNode.map Prod.fst := by
      intro hk
      rw [← alookup_isSome_iff, hlk] at hk
      cases hk
    refine ⟨?_, rfl, rfl, ?_, ?_, ?_, ?_⟩
    · rw [alookup_append, hlk]
      simp [alookup]
    · simp only [List.map_append, hrange]
      simp [List.range_succ]
    · simp only [List.map_append]
      exact nodup_append_singleton _ k hnodup hknotin
    · intro m v h
      exact alookup_extend _ _ _ _ h
    · intro m
      rw [alookup_append]
      rcases hm : alookup st.hashToNode m with _ | v
      · by_cases hmk : k = m
        · subst hmk
          simp [alookup]
        · have hmk' : ¬ m = k := fun h => hmk h.symm
          simp [alookup, hmk, hmk']
      · simp [hm]

/-- When the reference loop panics (`none`), the identifier-level graph
extended with this message's reference pairs is cyclic. -/
theorem addRefEdges_none (kid : M) :
    ∀ (refs : List M) (rp : List (M × M)) (st : BuildState M K)
      (keyNode : Nat),
      st.hashToNode.map Prod.snd = List.range st.nodeCount →
      (st.hashToNode.map Prod.fst).Nodup →
      alookup st.hashToNode kid = some keyNode →
      List.Forall₂ (EdgeCorr st.hashToNode) rp st.edges →
      addRefEdges st keyNode refs = none →
      ¬ Acyclic (rp ++ refs.map fun r => (kid, r)) := by
  intro refs
  induction refs with
  | nil =>
    intro rp st keyNode _ _ _ _ h
    simp [addRefEdges] at h
  | cons r rs ih =>
    intro rp st keyNode hrange hnodup hkid hcorr h
    simp only [addRefEdges] at h
    obtain ⟨hlkr, hedges, hntk, hrange', hnodup', hstable, hdom⟩ :=
      orInsertNode_spec st r hrange hnodup
    have hkid' : alookup (orInsertNode st r).2.hashToNode kid = some keyNode :=
      hstable kid keyNode hkid
    have hcorr' : List.Forall₂ (EdgeCorr (orInsertNode st r).2.hashToNode)
        rp (orInsertNode st r).2.edges := by
      rw [hedges]
      exact forall₂_imp (edgeCorr_stable hstable) hcorr
    have hsndnd : ((orInsertNode st r).2.hashToNode.map Prod.snd).Nodup := by
      rw [hrange']; exact List.nodup_range _
    rcases hae : add_edge (orInsertNode st r).2 keyNode (orInsertNode st r).1
      with _ | st2
    · -- the edge would close a cycle
      have hrtg : Relation.ReflTransGen (EdgeRel (orInsertNode st r).2.edges)
          (orInsertNode st r).1 keyNode :=
        (add_edge_none_iff _ _ _).mp hae
      obtain ⟨b, hb, hrp⟩ := rtg_down (orInsertNode st r).2.hashToNode hsndnd rp
        (orInsertNode st r).2.edges hcorr' (orInsertNode st r).1 keyNode hrtg r hlkr
      have hbkid : b = kid :=
        alookup_node_inj _ hsndnd b kid keyNode hb hkid'
      have hrp' : Relation.ReflTransGen (EdgeRel rp) r kid := hbkid ▸ hrp
      intro hacy
      refine hacy (kid, r) ?_ ?_
      · exact List.mem_append.mpr (Or.inr (by simp))
      · exact rtg_mono_subset (fun p hp => List.mem_append.mpr (Or.inl hp)) hrp'
    · rw [hae] at h
      obtain ⟨hnorev, hst2⟩ := add_edge_some _ _ _ _ hae
      have hnext := ih (rp ++ [(kid, r)]) st2 keyNode
        (by rw [hst2]; exact hrange')
        (by rw [hst2]; exact hnodup')
        (by rw [hst2]; exact hkid')
        (by
          rw [hst2]
          exact List.rel_append hcorr'
            (List.Forall₂.cons ⟨hkid', hlkr⟩ List.Forall₂.nil))
        h
      rw [List.map_cons, List.append_cons]
      exact hnext

/-- When the reference loop succeeds, it has registered every reference,
appended exactly this message's edges, kept the maps consistent, and
preserved acyclicity; the key map is untouched. -/
theorem addRefEdges_some (kid : M) :
    ∀ (refs : List M) (rp : List (M × M)) (st : BuildState M K)
      (keyNode : Nat) (st' : BuildState M K),
      st.hashToNode.map Prod.snd = List.range st.nodeCount →
      (st.hashToNode.map Prod.fst).Nodup →
      alookup st.hashToNode kid = some keyNode →
      List.Forall₂ (EdgeCorr st.hashToNode) rp st.edges →
      Acyclic st.edges →
      addRefEdges st keyNode refs = some st' →
      st'.hashToNode.map Prod.snd = List.range st'.nodeCount ∧
      (st'.hashToNode.map Prod.fst).Nodup ∧
      st'.nodeToKey = st.nodeToKey ∧
      (∀ m v, alookup st.hashToNode m = some v →
        alookup st'.hashToNode m = some v) ∧
      (∀ m, (alookup st'.hashToNode m).isSome ↔
        (alookup st.hashToNode m).isSome ∨ m ∈ refs) ∧
      List.Forall₂ (EdgeCorr st'.hashToNode)
        (rp ++ refs.map fun r => (kid, r)) st'.edges ∧
      Acyclic st'.edges := by
  intro refs
  induction refs with
  | nil =>
    intro rp st keyNode st' hrange hnodup hkid hcorr hacy h
    simp only [addRefEdges, Option.some.injEq] at h
    subst h
    exact ⟨hrange, hnodup, rfl, fun _ _ hm => hm, by simp, by simpa using hcorr,
      hacy⟩
  | cons r rs ih =>
    intro rp st keyNode st' hrange hnodup hkid hcorr hacy h
    simp only [addRefEdges] at h
    obtain ⟨hlkr, hedges, hntk, hrange', hnodup', hstable, hdom⟩ :=
      orInsertNode_spec st r hrange hnodup
    have hkid' : alookup (orInsertNode st r).2.hashToNode kid = some keyNode :=
      hstable kid keyNode hkid
    have hcorr' : List.Forall₂ (EdgeCorr (orInsertNode st r).2.hashToNode)
        rp (orInsertNode st r).2.edges := by
      rw [hedges]
      exact forall₂_imp (edgeCorr_stable hstable) hcorr
    rcases hae : add_edge (orInsertNode st r).2 keyNode (orInsertNode st r).1
      with _ | st2
    · rw [hae] at h; cases h
    · rw [hae] at h
      obtain ⟨hnorev, hst2⟩ := add_edge_some _ _ _ _ hae
      have hacy2 : Acyclic st2.edges := by
        rw [hst2]
        exact Acyclic.append _ _ _ (by rwa [hedges]) hnorev
      obtain ⟨g1, g2, g3, g4, g5, g6, g7⟩ := ih (rp ++ [(kid, r)]) st2 keyNode st'
        (by rw [hst2]; exact hrange')
        (by rw [hst2]; exact hnodup')
        (by rw [hst2]; exact hkid')
        (by
          rw [hst2]
          exact List.rel_append hcorr'
            (List.Forall₂.cons ⟨hkid', hlkr⟩ List.Forall₂.nil))
        hacy2 h
      refine ⟨g1, g2, ?_, ?_, ?_, ?_, g7⟩
      · rw [g3, hst2, hntk]
      · intro m v hm
        exact g4 m v (by rw [hst2]; exact hstable m v hm)
      · intro m
        rw [g5 m]
        have : (alookup st2.hashToNode m).isSome ↔
            (alookup st.hashToNode m).isSome ∨ m = r := by
          rw [hst2]; exact hdom m
        rw [this]
        simp only [List.mem_cons]
        tauto
      · rw [List.map_cons, List.append_cons]
        exact g6

end BuildLemmas

section Invariant

variable {M K : Type} [DecidableEq M]
variable (parseJson : String → Option Value) (parseId : String → Option M)

theorem idSeq_append (l₁ l₂ : List (M × K × String)) :
    idSeq parseJson parseId (l₁ ++ l₂) =
      idSeq parseJson parseId l₁ ++ idSeq parseJson parseId l₂ := by
  simp [idSeq]

theorem refPairs_append (l₁ l₂ : List (M × K × String)) :
    refPairs parseJson parseId (l₁ ++ l₂) =
      refPairs parseJson parseId l₁ ++ refPairs parseJson parseId l₂ := by
  simp [refPairs]

theorem idSeq_singleton (e : M × K × String) :
    idSeq parseJson parseId [e] =
      e.1 :: refsOfBody parseJson parseId e.2.2 := by
  simp [idSeq]

theorem refPairs_singleton (e : M × K × String) :
    refPairs parseJson parseId [e] =
      (refsOfBody parseJson parseId e.2.2).map fun r => (e.1, r) := by
  simp [refPairs]

theorem mem_idSeq_of_mem_ids (msgs : List (M × K × String)) (m : M)
    (h : m ∈ msgs.map fun e => e.1) : m ∈ idSeq parseJson parseId msgs := by
  rcases List.mem_map.mp h with ⟨e, he, rfl⟩
  simp only [idSeq, List.mem_flatMap]
  exact ⟨e, he, List.mem_cons_self _ _⟩

theorem mem_refPairs_of_ref (msgs : List (M × K × String))
    (e : M × K × String) (he : e ∈ msgs) (r : M)
    (hr : r ∈ refsOfBody parseJson parseId e.2.2) :
    (e.1, r) ∈ refPairs parseJson parseId msgs := by
  simp only [refPairs, List.mem_flatMap]
  exact ⟨e, he, List.mem_map.mpr ⟨r, hr, rfl⟩⟩

/-- The invariant of the fold of `causal_sort` after processing the
prefix `done` of the input. -/
structure BuildInv (done : List (M × K × String)) (st : BuildState M K) :
    Prop where
  rangeEq : st.hashToNode.map Prod.snd = List.range st.nodeCount
  fstNodup : (st.hashToNode.map Prod.fst).Nodup
  domIff : ∀ m : M, (alookup st.hashToNode m).isSome ↔
    m ∈ idSeq parseJson parseId done
  edgesCorr : List.Forall₂ (EdgeCorr st.hashToNode)
    (refPairs parseJson parseId done) st.edges
  keyCorr : List.Forall₂ (KeyCorr st.hashToNode) (dedupByFirst done)
    st.nodeToKey
  acy : Acyclic st.edges

theorem BuildInv.initial :
    BuildInv parseJson parseId [] (initialState : BuildState M K) := by
  refine ⟨by simp [initialState], by simp [initialState], ?_, ?_, ?_, ?_⟩
  · intro m
    simp [initialState, alookup, idSeq]
  · simp only [initialState, refPairs, List.flatMap_nil]
    exact List.Forall₂.nil
  · simp only [initialState, dedupByFirst, dedupByFirstAux]
    exact List.Forall₂.nil
  · intro p hp
    simp [initialState] at hp

theorem keyCorr_keys_nodup (h2n : List (M × Nat))
    (hsnd : (h2n.map Prod.snd).Nodup) :
    ∀ (dl : List (M × K × String)) (ntk : List (Nat × K)),
      ((dl.map fun e => e.1).Nodup) →
      List.Forall₂ (KeyCorr h2n) dl ntk →
      (ntk.map Prod.fst).Nodup := by
  intro dl ntk hids hcorr
  induction hcorr with
  | nil => simp
  | @cons e q dl' ntk' hR hrest ih =>
    rw [List.map_cons] at hids
    rw [List.map_cons, List.nodup_cons]
    refine ⟨fun hmem => ?_, ih (List.nodup_cons.mp hids).2⟩
    obtain ⟨q', hq', hq'1⟩ := List.mem_map.mp hmem
    obtain ⟨e', he', hc'⟩ := forall₂_mem_right hrest q' hq'
    have he'e : e'.1 = e.1 :=
      alookup_node_inj h2n hsnd e'.1 e.1 q.1 (hq'1 ▸ hc'.1) hR.1
    exact (List.nodup_cons.mp hids).1 (List.mem_map.mpr ⟨e', he', he'e⟩)

theorem keyCorr_keys_lt (h2n : List (M × Nat)) (n : Nat)
    (hrange : h2n.map Prod.snd = List.range n)
    (dl : List (M × K × String)) (ntk : List (Nat × K))
    (hcorr : List.Forall₂ (KeyCorr h2n) dl ntk) :
    ∀ q ∈ ntk, q.1 < n := by
  intro q hq
  obtain ⟨e, _, hc⟩ := forall₂_mem_right hcorr q hq
  have hmem : q.1 ∈ h2n.map Prod.snd :=
    List.mem_map.mpr ⟨(e.1, q.1), alookup_mem _ _ _ hc.1, rfl⟩
  rw [hrange] at hmem
  exact List.mem_range.mp hmem

theorem orInsertKey_preserves (st : BuildState M K) (nd : Nat) (k : K) :
    (orInsertKey st nd k).hashToNode = st.hashToNode ∧
    (orInsertKey st nd k).edges = st.edges ∧
    (orInsertKey st nd k).nodeCount = st.nodeCount := by
  rcases orInsertKey_cases st nd k with ⟨_, h⟩ | ⟨_, h⟩ <;> rw [h] <;>
    exact ⟨rfl, rfl, rfl⟩

/-- After the node- and key-registration of one message (but before its
edges), the state satisfies every component of the invariant extended
with that message, with the reference pairs still those of `done`. -/
theorem message_prelude (done : List (M × K × String))
    (st : BuildState M K) (e : M × K × String)
    (hinv : BuildInv parseJson parseId done st) :
    (orInsertKey (orInsertNode st e.1).2 (orInsertNode st e.1).1
        e.2.1).hashToNode = (orInsertNode st e.1).2.hashToNode ∧
    (orInsertKey (orInsertNode st e.1).2 (orInsertNode st e.1).1
        e.2.1).edges = st.edges ∧
    (orInsertKey (orInsertNode st e.1).2 (orInsertNode st e.1).1
        e.2.1).hashToNode.map Prod.snd =
      List.range (orInsertKey (orInsertNode st e.1).2 (orInsertNode st e.1).1
        e.2.1).nodeCount ∧
    ((orInsertKey (orInsertNode st e.1).2 (orInsertNode st e.1).1
        e.2.1).hashToNode.map Prod.fst).Nodup ∧
    alookup (orInsertKey (orInsertNode st e.1).2 (orInsertNode st e.1).1
        e.2.1).hashToNode e.1 = some (orInsertNode st e.1).1 ∧
    (∀ m v, alookup st.hashToNode m = some v →
      alookup (orInsertKey (orInsertNode st e.1).2 (orInsertNode st e.1).1
        e.2.1).hashToNode m = some v) ∧
    (∀ m, (alookup (orInsertKey (orInsertNode st e.1).2
        (orInsertNode st e.1).1 e.2.1).hashToNode m).isSome ↔
      (alookup st.hashToNode m).isSome ∨ m = e.1) ∧
    List.Forall₂ (EdgeCorr (orInsertKey (orInsertNode st e.1).2
        (orInsertNode st e.1).1 e.2.1).hashToNode)
      (refPairs parseJson parseId done)
      (orInsertKey (orInsertNode st e.1).2 (orInsertNode st e.1).1
        e.2.1).edges ∧
    List.Forall₂ (KeyCorr (orInsertKey (orInsertNode st e.1).2
        (orInsertNode st e.1).1 e.2.1).hashToNode)
      (dedupByFirst (done ++ [e]))
      (orInsertKey (orInsertNode st e.1).2 (orInsertNode st e.1).1
        e.2.1).nodeToKey := by
  obtain ⟨hlk, hedges, hntk, hrange', hnodup', hstable, hdom⟩ :=
    orInsertNode_spec st e.1 hinv.rangeEq hinv.fstNodup
  obtain ⟨kh2n, kedges, kcount⟩ :=
    orInsertKey_preserves (orInsertNode st e.1).2 (orInsertNode st e.1).1 e.2.1
  have hsnd : (st.hashToNode.map Prod.snd).Nodup := by
    rw [hinv.rangeEq]; exact List.nodup_range _
  have hsnd' : ((orInsertNode st e.1).2.hashToNode.map Prod.snd).Nodup := by
    rw [hrange']; exact List.nodup_range _
  refine ⟨kh2n, by rw [kedges, hedges], by rw [kh2n, kcount]; exact hrange',
    by rw [kh2n]; exact hnodup', by rw [kh2n]; exact hlk,
    (by rw [kh2n]; exact hstable), (by rw [kh2n]; exact hdom), ?_, ?_⟩
  · rw [kh2n, kedges, hedges]
    exact forall₂_imp (edgeCorr_stable hstable) hinv.edgesCorr
  · -- the key map: case analysis on whether the identifier is fresh
    rw [kh2n]
    rcases orInsertNode_cases st e.1 with ⟨hfound, hsame⟩ | ⟨hfresh, hcnt, hins⟩
    · -- identifier already has a node `kn`
      rcases orInsertKey_cases (orInsertNode st e.1).2 (orInsertNode st e.1).1
          e.2.1 with ⟨hksome, hkeq⟩ | ⟨hknone, hkeq⟩
      · -- node already owned by an earlier entry: nothing changes
        have hntk2 : (orInsertKey (orInsertNode st e.1).2
            (orInsertNode st e.1).1 e.2.1).nodeToKey = st.nodeToKey := by
          rw [hkeq, hsame]
        have hdedup : dedupByFirst (done ++ [e]) = dedupByFirst done := by
          refine dedupByFirst_snoc_mem done e ?_
          -- the owning entry has the same identifier
          rw [hsame] at hksome
          rcases Option.isSome_iff_exists.mp hksome with ⟨k'', hk''⟩
          obtain ⟨e', he', hc'⟩ :=
            forall₂_mem_right hinv.keyCorr ((orInsertNode st e.1).1, k'')
              (alookup_mem _ _ _ hk'')
          have he'e : e'.1 = e.1 :=
            alookup_node_inj st.hashToNode hsnd e'.1 e.1 (orInsertNode st e.1).1
              hc'.1 hfound
          exact List.mem_map.mpr
            ⟨e', dedupByFirstAux_subset done [] e' he', he'e⟩
        rw [hntk2, hdedup, hsame]
        exact hinv.keyCorr
      · -- node known but unowned: this entry claims it
        have hnotin : e.1 ∉ done.map fun x => x.1 := by
          intro hmem
          have hdd : e.1 ∈ (dedupByFirst done).map fun x => x.1 := by
            rw [dedupByFirst]
            exact (mem_ids_dedupByFirstAux done [] e.1).mpr ⟨by simp, hmem⟩
          rcases List.mem_map.mp hdd with ⟨e', he', he'1⟩
          obtain ⟨q, hq, hcq⟩ := forall₂_mem_left hinv.keyCorr e' he'
          have hq1 : q.1 = (orInsertNode st e.1).1 := by
            have h1 : alookup st.hashToNode e.1 = some q.1 := he'1 ▸ hcq.1
            have h2 : alookup st.hashToNode e.1 =
                some (orInsertNode st e.1).1 := hfound
            rw [h1] at h2
            injection h2
          rw [hsame] at hknone
          have : (orInsertNode st e.1).1 ∈ st.nodeToKey.map Prod.fst :=
            List.mem_map.mpr ⟨q, hq, hq1⟩
          rw [← alookup_isSome_iff, hknone] at this
          cases this
        rw [dedupByFirst_snoc_not_mem done e hnotin, hkeq, hsame]
        exact List.rel_append hinv.keyCorr
          (List.Forall₂.cons ⟨hfound, rfl⟩ List.Forall₂.nil)
    · -- fresh identifier: fresh node, necessarily unowned
      have hnotin : e.1 ∉ done.map fun x => x.1 := by
        intro hmem
        have : (alookup st.hashToNode e.1).isSome := by
          rw [hinv.domIff]
          exact mem_idSeq_of_mem_ids parseJson parseId done e.1 hmem
        rw [hfresh] at this
        cases this
      have hknone : alookup (orInsertNode st e.1).2.nodeToKey
          (orInsertNode st e.1).1 = none := by
        rw [hntk, hcnt]
        refine alookup_eq_none _ _ fun q hq => ?_
        exact Nat.ne_of_lt (keyCorr_keys_lt st.hashToNode st.nodeCount
          hinv.rangeEq (dedupByFirst done) st.nodeToKey hinv.keyCorr q hq)
      rcases orInsertKey_cases (orInsertNode st e.1).2 (orInsertNode st e.1).1
          e.2.1 with ⟨hksome, _⟩ | ⟨_, hkeq⟩
      · rw [hknone] at hksome
        cases hksome
      · rw [dedupByFirst_snoc_not_mem done e hnotin, hkeq, hntk]
        refine List.rel_append
          (forall₂_imp (keyCorr_stable hstable) hinv.keyCorr)
          (List.Forall₂.cons ⟨hlk, rfl⟩ List.Forall₂.nil)

/-- Processing one whole message preserves the invariant. -/
theorem buildStep_inv (done : List (M × K × String)) (st : BuildState M K)
    (e : M × K × String) (st3 : BuildState M K)
    (hinv : BuildInv parseJson parseId done st)
    (hre : addRefEdges
      (orInsertKey (orInsertNode st e.1).2 (orInsertNode st e.1).1 e.2.1)
      (orInsertNode st e.1).1 (refsOfBody parseJson parseId e.2.2) =
        some st3) :
    BuildInv parseJson parseId (done ++ [e]) st3 := by
  obtain ⟨ph2n, pedges, prange, pnodup, plk, pstable, pdom, pcorr, pkey⟩ :=
    message_prelude parseJson parseId done st e hinv
  obtain ⟨g1, g2, g3, g4, g5, g6, g7⟩ :=
    addRefEdges_some e.1 (refsOfBody parseJson parseId e.2.2)
      (refPairs parseJson parseId done) _ (orInsertNode st e.1).1 st3
      prange pnodup plk pcorr (by rw [pedges]; exact hinv.acy) hre
  refine ⟨g1, g2, ?_, ?_, ?_, g7⟩
  · intro m
    rw [g5 m, pdom m, hinv.domIff m, idSeq_append, idSeq_singleton]
    simp only [List.mem_append, List.mem_cons]
    tauto
  · rw [refPairs_append, refPairs_singleton]
    exact g6
  · rw [g3]
    exact forall₂_imp (keyCorr_stable g4) pkey

/-- A successful fold establishes the invariant for the whole input. -/
theorem buildDag_some_inv :
    ∀ (todo done : List (M × K × String)) (st st' : BuildState M K),
      BuildInv parseJson parseId done st →
      buildDag parseJson parseId todo st = some st' →
      BuildInv parseJson parseId (done ++ todo) st' := by
  intro todo
  induction todo with
  | nil =>
    intro done st st' hinv h
    simp only [buildDag, Option.some.injEq] at h
    subst h
    simpa using hinv
  | cons e todo' ih =>
    intro done st st' hinv h
    obtain ⟨key, keyId, msg⟩ := e
    simp only [buildDag] at h
    rcases hre : addRefEdges
        (orInsertKey (orInsertNode st key).2 (orInsertNode st key).1 keyId)
        (orInsertNode st key).1 (refsOfBody parseJson parseId msg)
      with _ | st3
    · rw [hre] at h; cases h
    · rw [hre] at h
      have hinv' := buildStep_inv parseJson parseId done st (key, keyId, msg)
        st3 hinv hre
      have := ih (done ++ [(key, keyId, msg)]) st3 st' hinv' h
      rwa [List.append_cons]

/-- A failed fold exhibits a cycle in the identifier-level reference
graph of the whole input. -/
theorem buildDag_none_not_acyclic :
    ∀ (todo done : List (M × K × String)) (st : BuildState M K),
      BuildInv parseJson parseId done st →
      buildDag parseJson parseId todo st = none →
      ¬ Acyclic (refPairs parseJson parseId (done ++ todo)) := by
  intro todo
  induction todo with
  | nil =>
    intro done st hinv h
    simp [buildDag] at h
  | cons e todo' ih =>
    intro done st hinv h
    obtain ⟨key, keyId, msg⟩ := e
    simp only [buildDag] at h
    obtain ⟨ph2n, pedges, prange, pnodup, plk, pstable, pdom, pcorr, pkey⟩ :=
      message_prelude parseJson parseId done st (key, keyId, msg) hinv
    rcases hre : addRefEdges
        (orInsertKey (orInsertNode st key).2 (orInsertNode st key).1 keyId)
        (orInsertNode st key).1 (refsOfBody parseJson parseId msg)
      with _ | st3
    · have hnot := addRefEdges_none key (refsOfBody parseJson parseId msg)
        (refPairs parseJson parseId done) _ (orInsertNode st key).1
        prange pnodup plk pcorr hre
      refine not_acyclic_mono ?_ hnot
      intro p hp
      rw [List.append_cons, refPairs_append]
      refine List.mem_append.mpr (Or.inl ?_)
      rw [refPairs_append]
      rwa [refPairs_singleton parseJson parseId (key, keyId, msg)]
    · rw [hre] at h
      have hinv' := buildStep_inv parseJson parseId done st (key, keyId, msg)
        st3 hinv hre
      have := ih (done ++ [(key, keyId, msg)]) st3 hinv' h
      rwa [List.append_cons]

/-- The invariant transfers acyclicity of the built dag back to the
identifier-level reference graph. -/
theorem buildInv_acyclic_ids (msgs : List (M × K × String))
    (st : BuildState M K) (hinv : BuildInv parseJson parseId msgs st) :
    Acyclic (refPairs parseJson parseId msgs) := by
  intro p hp hrtg
  have hsnd : (st.hashToNode.map Prod.snd).Nodup := by
    rw [hinv.rangeEq]; exact List.nodup_range _
  obtain ⟨e, he, hce⟩ := forall₂_mem_left hinv.edgesCorr p hp
  obtain ⟨na', hna', hrtg'⟩ := rtg_up st.hashToNode
    (refPairs parseJson parseId msgs) st.edges hinv.edgesCorr p.2 p.1 hrtg
    e.2 hce.2
  have : na' = e.1 := by
    rw [hce.1] at hna'
    injection hna' with hna'
    exact hna'.symm
  rw [this] at hrtg'
  exact hinv.acy e he hrtg'

theorem edges_wf (msgs : List (M × K × String)) (st : BuildState M K)
    (hinv : BuildInv parseJson parseId msgs st) :
    ∀ p ∈ st.edges, p.1 < st.nodeCount ∧ p.2 < st.nodeCount := by
  intro p hp
  obtain ⟨q, _, hcq⟩ := forall₂_mem_right hinv.edgesCorr p hp
  constructor
  · have : p.1 ∈ st.hashToNode.map Prod.snd :=
      List.mem_map.mpr ⟨(q.1, p.1), alookup_mem _ _ _ hcq.1, rfl⟩
    rw [hinv.rangeEq] at this
    exact List.mem_range.mp this
  · have : p.2 ∈ st.hashToNode.map Prod.snd :=
      List.mem_map.mpr ⟨(q.2, p.2), alookup_mem _ _ _ hcq.2, rfl⟩
    rw [hinv.rangeEq] at this
    exact List.mem_range.mp this

/-- The call panics (`none`) exactly when the identifier-level reference
graph of the input has a cycle. -/
theorem causal_sort_none_iff (msgs : List (M × K × String)) :
    causal_sort parseJson parseId msgs = (none : Option (List K)) ↔
      ¬ Acyclic (refPairs parseJson parseId msgs) := by
  constructor
  · intro h
    rw [causal_sort] at h
    rcases hbd : buildDag parseJson parseId msgs initialState with _ | st
    · have := buildDag_none_not_acyclic parseJson parseId msgs [] initialState
        (BuildInv.initial parseJson parseId) hbd
      simpa using this
    · rw [hbd] at h
      cases h
  · intro hnot
    rw [causal_sort]
    rcases hbd : buildDag parseJson parseId msgs initialState with _ | st
    · rfl
    · have hinv := buildDag_some_inv parseJson parseId msgs [] initialState st
        (BuildInv.initial parseJson parseId) hbd
      rw [List.nil_append] at hinv
      exact absurd (buildInv_acyclic_ids parseJson parseId msgs st hinv) hnot

theorem filterMap_congr_mem {γ β : Type} :
    ∀ (l : List γ) (f g : γ → Option β), (∀ x ∈ l, f x = g x) →
      l.filterMap f = l.filterMap g := by
  intro l
  induction l with
  | nil => intro f g _; rfl
  | cons x l ih =>
    intro f g h
    rw [List.filterMap_cons, List.filterMap_cons,
      h x (List.mem_cons_self _ _), ih f g fun y hy => h y (List.mem_cons_of_mem _ hy)]

/-- Filter-mapping a duplicate-free enumeration through an association
list with duplicate-free keys yields a permutation of its values. -/
theorem filterMap_alookup_perm {β : Type} :
    ∀ (ntk : List (Nat × β)) (l : List Nat), l.Nodup →
      (ntk.map Prod.fst).Nodup → (∀ q ∈ ntk, q.1 ∈ l) →
      (l.filterMap fun nd => alookup ntk nd).Perm (ntk.map Prod.snd) := by
  intro ntk
  induction ntk with
  | nil =>
    intro l _ _ _
    have : (l.filterMap fun nd => alookup ([] : List (Nat × β)) nd) = [] := by
      induction l with
      | nil => rfl
      | cons x l ihl => simpa [List.filterMap_cons, alookup] using ihl
    rw [this]
    simp
  | cons q rest ih =>
    intro l hlnd hknd hsub
    obtain ⟨nd, v⟩ := q
    have hndl : nd ∈ l := hsub (nd, v) (List.mem_cons_self _ _)
    obtain ⟨l1, l2, rfl⟩ := List.append_of_mem hndl
    have hmid : (nd :: (l1 ++ l2)).Nodup := List.nodup_middle.mp hlnd
    have hnd1 : nd ∉ l1 := fun hc =>
      (List.nodup_cons.mp hmid).1 (List.mem_append.mpr (Or.inl hc))
    have hnd2 : nd ∉ l2 := fun hc =>
      (List.nodup_cons.mp hmid).1 (List.mem_append.mpr (Or.inr hc))
    have hkey : nd ∉ rest.map Prod.fst := by
      rw [List.map_cons] at hknd
      exact (List.nodup_cons.mp hknd).1
    have hrestnd : (rest.map Prod.fst).Nodup := by
      rw [List.map_cons] at hknd
      exact (List.nodup_cons.mp hknd).2
    have hcons : ∀ x : Nat, x ≠ nd →
        alookup ((nd, v) :: rest) x = alookup rest x := by
      intro x hx
      rw [alookup, if_neg fun hc => hx hc.symm]
    have hf1 : (l1.filterMap fun x => alookup ((nd, v) :: rest) x) =
        l1.filterMap fun x => alookup rest x :=
      filterMap_congr_mem l1 _ _ fun x hx =>
        hcons x fun hc => hnd1 (hc ▸ hx)
    have hf2 : (l2.filterMap fun x => alookup ((nd, v) :: rest) x) =
        l2.filterMap fun x => alookup rest x :=
      filterMap_congr_mem l2 _ _ fun x hx =>
        hcons x fun hc => hnd2 (hc ▸ hx)
    have hself : alookup ((nd, v) :: rest) nd = some v := by
      rw [alookup, if_pos rfl]
    rw [List.filterMap_append, List.filterMap_cons, hself, hf1, hf2]
    refine List.Perm.trans (List.perm_middle) ?_
    rw [List.map_cons]
    refine List.Perm.cons v ?_
    rw [← List.filterMap_append]
    refine ih (l1 ++ l2) (List.nodup_cons.mp hmid).2 hrestnd ?_
    intro q' hq'
    have hq'mem : q'.1 ∈ l1 ++ nd :: l2 := hsub q' (List.mem_cons_of_mem _ hq')
    have hq'nd : q'.1 ≠ nd := fun hc =>
      hkey (List.mem_map.mpr ⟨q', hq', hc⟩)
    rcases List.mem_append.mp hq'mem with h | h
    · exact List.mem_append.mpr (Or.inl h)
    · rcases List.mem_cons.mp h with h | h
      · exact absurd h hq'nd
      · exact List.mem_append.mpr (Or.inr h)

theorem forall₂_key_map_eq (h2n : List (M × Nat)) :
    ∀ (dl : List (M × K × String)) (ntk : List (Nat × K)),
      List.Forall₂ (KeyCorr h2n) dl ntk →
      ntk.map Prod.snd = dl.map fun e => e.2.1 := by
  intro dl ntk hcorr
  induction hcorr with
  | nil => rfl
  | @cons e q dl' ntk' hR _ ih =>
    rw [List.map_cons, List.map_cons, ih, hR.2]

/-- The output of a successful `causal_sort` is a permutation of the
caller keys of the first entries of the distinct supplied identifiers. -/
theorem causal_sort_output_perm (msgs : List (M × K × String))
    (st : BuildState M K)
    (hbd : buildDag parseJson parseId msgs initialState = some st) :
    ((topoList st.nodeCount st.edges).filterMap fun nd =>
      alookup st.nodeToKey nd).Perm
        ((dedupByFirst msgs).map fun e => e.2.1) := by
  have hinv := buildDag_some_inv parseJson parseId msgs [] initialState st
    (BuildInv.initial parseJson parseId) hbd
  rw [List.nil_append] at hinv
  have hsnd : (st.hashToNode.map Prod.snd).Nodup := by
    rw [hinv.rangeEq]; exact List.nodup_range _
  have hperm : (topoList st.nodeCount st.edges).Perm
      (List.range st.nodeCount) :=
    topoList_perm_range st.nodeCount st.edges
      (edges_wf parseJson parseId msgs st hinv) hinv.acy
  have hkeysnd : (st.nodeToKey.map Prod.fst).Nodup :=
    keyCorr_keys_nodup st.hashToNode hsnd (dedupByFirst msgs) st.nodeToKey
      (by
        rw [dedupByFirst]
        exact ids_dedupByFirstAux_nodup msgs [])
      hinv.keyCorr
  refine List.Perm.trans (hperm.filterMap fun nd => alookup st.nodeToKey nd) ?_
  rw [← forall₂_key_map_eq st.hashToNode (dedupByFirst msgs) st.nodeToKey
    hinv.keyCorr]
  refine filterMap_alookup_perm st.nodeToKey (List.range st.nodeCount)
    (List.nodup_range _) hkeysnd ?_
  intro q hq
  exact List.mem_range.mpr (keyCorr_keys_lt st.hashToNode st.nodeCount
    hinv.rangeEq (dedupByFirst msgs) st.nodeToKey hinv.keyCorr q hq)

/-- The caller key recorded for a node is the key of the first entry
carrying the node's identifier. -/
theorem nodeToKey_of_firstEntry (msgs : List (M × K × String))
    (st : BuildState M K) (hinv : BuildInv parseJson parseId msgs st)
    (id : M) (e : M × K × String) (nd : Nat)
    (hf : firstEntry msgs id = some e)
    (hnd : alookup st.hashToNode id = some nd) :
    alookup st.nodeToKey nd = some e.2.1 := by
  have hsnd : (st.hashToNode.map Prod.snd).Nodup := by
    rw [hinv.rangeEq]; exact List.nodup_range _
  have hkeysnd : (st.nodeToKey.map Prod.fst).Nodup :=
    keyCorr_keys_nodup st.hashToNode hsnd (dedupByFirst msgs) st.nodeToKey
      (by rw [dedupByFirst]; exact ids_dedupByFirstAux_nodup msgs [])
      hinv.keyCorr
  have hed : e ∈ dedupByFirst msgs := firstEntry_mem_dedupByFirst msgs id e hf
  obtain ⟨q, hq, hcq⟩ := forall₂_mem_left hinv.keyCorr e hed
  have he1 : e.1 = id := firstEntry_id msgs id e hf
  have hq1 : q.1 = nd := by
    have h1 : alookup st.hashToNode id = some q.1 := he1 ▸ hcq.1
    rw [hnd] at h1
    injection h1 with h1
    exact h1.symm
  have : alookup st.nodeToKey q.1 = some q.2 :=
    mem_alookup_of_nodupKeys st.nodeToKey q.1 q.2 hkeysnd hq
  rw [hq1, hcq.2] at this
  exact this

/-- Dependents precede their dependencies: when any entry carrying
identifier `idB` references `idA` and both identifiers are supplied, the
key of the first `idB`-entry is emitted strictly before the key of the
first `idA`-entry. -/
theorem causal_sort_order_core (msgs : List (M × K × String))
    (out : List K) (hcs : causal_sort parseJson parseId msgs = some out)
    (idA : M) (entryB eB eA : M × K × String)
    (hB : entryB ∈ msgs)
    (href : idA ∈ refsOfBody parseJson parseId entryB.2.2)
    (hfB : firstEntry msgs entryB.1 = some eB)
    (hfA : firstEntry msgs idA = some eA) :
    ∃ l1 l2 l3, out = l1 ++ eB.2.1 :: l2 ++ eA.2.1 :: l3 := by
  rw [causal_sort] at hcs
  rcases hbd : buildDag parseJson parseId msgs initialState with _ | st
  · rw [hbd] at hcs; cases hcs
  · rw [hbd] at hcs
    injection hcs with hcs
    have hinv := buildDag_some_inv parseJson parseId msgs [] initialState st
      (BuildInv.initial parseJson parseId) hbd
    rw [List.nil_append] at hinv
    have hpair : (entryB.1, idA) ∈ refPairs parseJson parseId msgs :=
      mem_refPairs_of_ref parseJson parseId msgs entryB hB idA href
    obtain ⟨ed, hed, hced⟩ := forall₂_mem_left hinv.edgesCorr (entryB.1, idA)
      hpair
    set nB := ed.1 with hnB
    set nA := ed.2 with hnA
    have hedmem : (nB, nA) ∈ st.edges := by
      have : (ed.1, ed.2) ∈ st.edges := hed
      exact this
    have hBA : nB ≠ nA := by
      intro hc
      refine hinv.acy (nB, nA) hedmem ?_
      rw [hc]
    have hwf := edges_wf parseJson parseId msgs st hinv
    have hAlt : nA < st.nodeCount := (hwf (nB, nA) hedmem).2
    have hAin : nA ∈ topoList st.nodeCount st.edges :=
      topoList_complete st.nodeCount st.edges hwf hinv.acy nA hAlt
    obtain ⟨ys, zs, hsplit⟩ := List.append_of_mem hAin
    have hBin : nB ∈ ys :=
      topoList_edge_order st.nodeCount st.edges nB nA hedmem ys zs hsplit
    obtain ⟨y1, y2, hysplit⟩ := List.append_of_mem hBin
    have hkB : alookup st.nodeToKey nB = some eB.2.1 :=
      nodeToKey_of_firstEntry parseJson parseId msgs st hinv entryB.1 eB nB
        hfB hced.1
    have hkA : alookup st.nodeToKey nA = some eA.2.1 :=
      nodeToKey_of_firstEntry parseJson parseId msgs st hinv idA eA nA
        hfA hced.2
    refine ⟨(y1.filterMap fun nd => alookup st.nodeToKey nd),
      (y2.filterMap fun nd => alookup st.nodeToKey nd),
      (zs.filterMap fun nd => alookup st.nodeToKey nd), ?_⟩
    rw [← hcs, hsplit, hysplit]
    simp [List.filterMap_append, List.filterMap_cons, hkB, hkA]

/-- On an acyclic reference graph the sort succeeds and returns one key
per distinct supplied identifier (the first entry's key). -/
theorem causal_sort_acyclic_spec (msgs : List (M × K × String))
    (hacy : Acyclic (refPairs parseJson parseId msgs)) :
    ∃ out, causal_sort parseJson parseId msgs = some out ∧
      out.Perm ((dedupByFirst msgs).map fun e => e.2.1) := by
  rcases hcs : causal_sort parseJson parseId msgs with _ | out
  · exact absurd hacy ((causal_sort_none_iff parseJson parseId msgs).mp hcs)
  · refine ⟨out, rfl, ?_⟩
    rw [causal_sort] at hcs
    rcases hbd : buildDag parseJson parseId msgs initialState with _ | st
    · rw [hbd] at hcs; cases hcs
    · rw [hbd] at hcs
      injection hcs with hcs
      rw [← hcs]
      exact causal_sort_output_perm parseJson parseId msgs st hbd

/-- An unparseable body contributes no references. -/
theorem refsOfBody_parse_fail (body : String)
    (h : parseJson body = none) : refsOfBody parseJson parseId body = [] := by
  rw [refsOfBody, h]
  rfl

theorem refPairs_mem_decomp (msgs : List (M × K × String)) (p : M × M)
    (hp : p ∈ refPairs parseJson parseId msgs) :
    ∃ e ∈ msgs, e.1 = p.1 ∧ p.2 ∈ refsOfBody parseJson parseId e.2.2 := by
  simp only [refPairs, List.mem_flatMap, List.mem_map] at hp
  obtain ⟨e, he, r, hr, hpr⟩ := hp
  subst hpr
  exact ⟨e, he, rfl, hr⟩

theorem firstEntry_of_unique (msgs : List (M × K × String))
    (e : M × K × String) (he : e ∈ msgs)
    (huniq : ∀ e' ∈ msgs, e'.1 = e.1 → e' = e) :
    firstEntry msgs e.1 = some e := by
  induction msgs with
  | nil => simp at he
  | cons d l ih =>
    rw [firstEntry, List.find?]
    by_cases hd : d.1 = e.1
    · rw [decide_eq_true hd]
      rw [huniq d (List.mem_cons_self _ _) hd]
    · rw [decide_eq_false hd]
      rcases List.mem_cons.mp he with rfl | he'
      · exact absurd rfl hd
      · exact ih he' fun e' he'' h' =>
          huniq e' (List.mem_cons_of_mem _ he'') h'

theorem filter_eq_length_one {γ δ : Type} [DecidableEq δ] :
    ∀ (l : List γ) (f : γ → δ) (c : δ), ((l.map f).Nodup) →
      ∀ x ∈ l, f x = c → (l.filter fun y => decide (f y = c)).length = 1 := by
  intro l
  induction l with
  | nil => intro f c _ x hx; simp at hx
  | cons d l ih =>
    intro f c hnd x hx hfx
    rw [List.map_cons] at hnd
    rw [List.filter_cons]
    by_cases hd : f d = c
    · rw [if_pos (decide_eq_true hd)]
      have : l.filter (fun y => decide (f y = c)) = [] := by
        rw [List.filter_eq_nil]
        intro y hy hc
        rw [decide_eq_true_eq] at hc
        exact (List.nodup_cons.mp hnd).1
          (hd ▸ hc ▸ List.mem_map.mpr ⟨y, hy, rfl⟩)
      rw [this]
      rfl
    · rw [if_neg (by simpa using hd)]
      rcases List.mem_cons.mp hx with rfl | hx'
      · exact absurd hfx hd
      · exact ih f c (List.nodup_cons.mp hnd).2 x hx' hfx

/-- Ordering helper specialised to a singleton input referencing a single
absent identifier. -/
theorem single_orphan_sort (id r : M) (k : K) (body : String)
    (href : refsOfBody parseJson parseId body = [r]) (hne : r ≠ id) :
    causal_sort parseJson parseId [(id, k, body)] = some [k] := by
  have hrp : refPairs parseJson parseId [(id, k, body)] = [(id, r)] := by
    rw [refPairs_singleton, href]
    rfl
  have hacy : Acyclic (refPairs parseJson parseId [(id, k, body)]) := by
    rw [hrp]
    intro p hp hrtg
    rw [List.mem_singleton] at hp
    subst hp
    rcases Relation.ReflTransGen.cases_head hrtg with heq | ⟨c, hstep, _⟩
    · exact hne heq
    · have : (r, c) ∈ [(id, r)] := hstep
      rw [List.mem_singleton] at this
      injection this with h1 _
      exact hne h1
  obtain ⟨out, hout, hperm⟩ :=
    causal_sort_acyclic_spec parseJson parseId [(id, k, body)] hacy
  have hd : dedupByFirst [(id, k, body)] = [(id, k, body)] := by
    simp [dedupByFirst, dedupByFirstAux]
  rw [hd] at hperm
  simp only [List.map_cons, List.map_nil] at hperm
  rw [List.perm_singleton] at hperm
  rw [hperm] at hout
  exact hout

end Invariant

/-! ## Concrete instantiations used by the closed theorems

The identifier codec (`Multihash::from_legacy`) and the JSON parser
(`serde_json::from_str`) are external collaborators; the closed theorems
instantiate them with small concrete functions of the right shape. -/

/-- A concrete identifier codec recognising three identifier strings. -/
def pidW : String → Option String := fun s =>
  if s = "root" ∨ s = "reply1" ∨ s = "reply2" then some s else none

/-- A concrete structured-document parser for four fixed bodies. -/
def pjW : String → Option Value := fun s =>
  if s = "emptyobj" then some (Value.obj [])
  else if s = "r1" then some (Value.obj [("root", Value.str "root")])
  else if s = "r2" then some (Value.obj
    [("root", Value.str "root"), ("previous", Value.str "reply1")])
  else none

/-- The root message of the three-message scenario: no references. -/
def rootW : String × Nat × String := ("root", 1, "emptyobj")

/-- The first reply: references `root`. -/
def reply1W : String × Nat × String := ("reply1", 2, "r1")

/-- The second reply: references `root` and `reply1`. -/
def reply2W : String × Nat × String := ("reply2", 3, "r2")

/-- All six supply orders of the three-message scenario. -/
def perms9 : List (List (String × Nat × String)) :=
  [[rootW, reply1W, reply2W], [rootW, reply2W, reply1W],
   [reply1W, rootW, reply2W], [reply1W, reply2W, rootW],
   [reply2W, rootW, reply1W], [reply2W, reply1W, rootW]]

/-- A codec accepting every string, used for the self-reference input. -/
def pidSelf : String → Option String := fun s => some s

/-- A parser mapping every body to a JSON string of itself. -/
def pjSelf : String → Option Value := fun s => some (Value.str s)

/-! ## The claims -/

section Claims

variable {M K : Type} [DecidableEq M]

/-- C1: for every input message `B` whose body references the identifier
of input message `A` (each being the first entry of its identifier), if
the reference graph is cycle-free then `causal_sort` succeeds and the
position of `B`'s caller key strictly precedes the position of `A`'s
caller key — dependents are emitted before their dependencies. -/
theorem C1_edge_ordering (parseJson : String → Option Value)
    (parseId : String → Option M) (msgs : List (M × K × String))
    (A B : M × K × String) (hA : A ∈ msgs) (hB : B ∈ msgs)
    (href : A.1 ∈ refsOfBody parseJson parseId B.2.2)
    (hfB : firstEntry msgs B.1 = some B)
    (hfA : firstEntry msgs A.1 = some A)
    (hacy : Acyclic (refPairs parseJson parseId msgs)) :
    ∃ out l1 l2 l3, causal_sort parseJson parseId msgs = some out ∧
      out = l1 ++ B.2.1 :: l2 ++ A.2.1 :: l3 := by
  obtain ⟨out, hout, -⟩ := causal_sort_acyclic_spec parseJson parseId msgs hacy
  obtain ⟨l1, l2, l3, hdec⟩ := causal_sort_order_core parseJson parseId msgs
    out hout A.1 B B A hB href hfB hfA
  exact ⟨out, l1, l2, l3, hout, hdec⟩

/-- C1 witness: in the two-message input `{reply1 referencing root,
root}` the key of `reply1` is emitted before the key of `root`. -/
theorem C1_edge_ordering_witness :
    rootW ∈ [reply1W, rootW] ∧ reply1W ∈ [reply1W, rootW] ∧
    rootW.1 ∈ refsOfBody pjW pidW reply1W.2.2 ∧
    firstEntry [reply1W, rootW] reply1W.1 = some reply1W ∧
    firstEntry [reply1W, rootW] rootW.1 = some rootW ∧
    Acyclic (refPairs pjW pidW [reply1W, rootW]) ∧
    ∃ out l1 l2 l3, causal_sort pjW pidW [reply1W, rootW] = some out ∧
      out = l1 ++ reply1W.2.1 :: l2 ++ rootW.2.1 :: l3 :=
  ⟨by decide, by decide, by decide, by decide, by decide, by decide,
    C1_edge_ordering pjW pidW [reply1W, rootW] rootW reply1W (by decide)
      (by decide) (by decide) (by decide) (by decide) (by decide)⟩

/-- C2 counterexample: on a self-referencing input the call yields no
value at all — it panics (`none` models the `expect` panic on
`add_edge`).  The embedded `causal_sort`, like the Rust function whose
return type is a plain `Vec<K>`, has no error channel, so no typed
cycle-error result is surfaced to the caller; the claim that one is
returned "rather than crashing the process" is false. -/
theorem C2_counterexample :
    causal_sort pjSelf pidSelf [("a", (0 : Nat), "a")] = none := by decide

/-- C2 (amended): when adding a reference edge would create a cycle,
`causal_sort` fails for the whole call by panicking (the `expect` on
`add_edge`, modelled as `none`) and never returns a silent partial
result; it panics exactly on cyclic reference graphs. -/
theorem C2_cycle_panics (parseJson : String → Option Value)
    (parseId : String → Option M) (msgs : List (M × K × String)) :
    causal_sort parseJson parseId msgs = (none : Option (List K)) ↔
      ¬ Acyclic (refPairs parseJson parseId msgs) :=
  causal_sort_none_iff parseJson parseId msgs

/-- C3: on any cycle-free input `causal_sort` returns (the embedding is
total, so it terminates) a sequence with exactly one caller-key entry per
distinct supplied identifier: a permutation of the keys of the first
entries of the distinct identifiers — no supplied message is dropped,
none appears twice, and no foreign key appears. -/
theorem C3_acyclic_exactly_once (parseJson : String → Option Value)
    (parseId : String → Option M) (msgs : List (M × K × String))
    (hacy : Acyclic (refPairs parseJson parseId msgs)) :
    ∃ out, causal_sort parseJson parseId msgs = some out ∧
      out.Perm ((dedupByFirst msgs).map fun e => e.2.1) ∧
      ((dedupByFirst msgs).map fun e => e.1).Nodup ∧
      ∀ m : M, (m ∈ (dedupByFirst msgs).map fun e => e.1) ↔
        m ∈ msgs.map fun e => e.1 := by
  obtain ⟨out, hout, hperm⟩ :=
    causal_sort_acyclic_spec parseJson parseId msgs hacy
  refine ⟨out, hout, hperm, ?_, ?_⟩
  · rw [dedupByFirst]
    exact ids_dedupByFirstAux_nodup msgs []
  · intro m
    rw [dedupByFirst, mem_ids_dedupByFirstAux]
    simp

/-- C3 witness: the two-message input is cycle-free and sorts to one key
per identifier. -/
theorem C3_acyclic_exactly_once_witness :
    Acyclic (refPairs pjW pidW [reply1W, rootW]) ∧
    ∃ out, causal_sort pjW pidW [reply1W, rootW] = some out ∧
      out.Perm ((dedupByFirst [reply1W, rootW]).map fun e => e.2.1) ∧
      ((dedupByFirst [reply1W, rootW]).map fun e => e.1).Nodup ∧
      ∀ m : String, (m ∈ (dedupByFirst [reply1W, rootW]).map fun e => e.1) ↔
        m ∈ [reply1W, rootW].map fun e => e.1 :=
  ⟨by decide, C3_acyclic_exactly_once pjW pidW [reply1W, rootW] (by decide)⟩

/-- C4: a message whose raw body fails to parse is treated as having zero
references, not as an error: provided no other entry reuses its
identifier and the call returns, its caller key still appears in the
output — exactly once, being the sole entry of its identifier among the
one-per-identifier output — and its node has no outgoing edges. -/
theorem C4_malformed_body (parseJson : String → Option Value)
    (parseId : String → Option M) (msgs : List (M × K × String))
    (id : M) (k : K) (body : String) (out : List K)
    (hmem : (id, k, body) ∈ msgs) (hpf : parseJson body = none)
    (huniq : ∀ e' ∈ msgs, e'.1 = id → e' = (id, k, body))
    (hcs : causal_sort parseJson parseId msgs = some out) :
    refsOfBody parseJson parseId body = [] ∧
    (∃ l1 l2, out = l1 ++ k :: l2) ∧
    out.Perm ((dedupByFirst msgs).map fun e => e.2.1) ∧
    (id, k, body) ∈ dedupByFirst msgs ∧
    ∀ st, buildDag parseJson parseId msgs initialState = some st →
      ∀ nd, alookup st.hashToNode id = some nd →
        ∀ ed ∈ st.edges, ed.1 ≠ nd := by
  have hrefs : refsOfBody parseJson parseId body = [] :=
    refsOfBody_parse_fail parseJson parseId body hpf
  have hfe : firstEntry msgs id = some (id, k, body) :=
    firstEntry_of_unique msgs (id, k, body) hmem huniq
  have hded : (id, k, body) ∈ dedupByFirst msgs :=
    firstEntry_mem_dedupByFirst msgs id _ hfe
  rw [causal_sort] at hcs
  rcases hbd : buildDag parseJson parseId msgs initialState with _ | st
  · rw [hbd] at hcs; cases hcs
  · rw [hbd] at hcs
    injection hcs with hcs
    have hperm := causal_sort_output_perm parseJson parseId msgs st hbd
    rw [hcs] at hperm
    refine ⟨hrefs, ?_, hperm, hded, ?_⟩
    · have hk : k ∈ out := hperm.mem_iff.mpr
        (List.mem_map.mpr ⟨(id, k, body), hded, rfl⟩)
      exact List.append_of_mem hk
    · intro st' hbd' nd hnd ed hedmem hc
      injection hbd' with hst
      subst hst
      have hinv := buildDag_some_inv parseJson parseId msgs [] initialState
        st (BuildInv.initial parseJson parseId) hbd
      rw [List.nil_append] at hinv
      have hsnd : (st.hashToNode.map Prod.snd).Nodup := by
        rw [hinv.rangeEq]; exact List.nodup_range _
      obtain ⟨p, hp, hcp⟩ := forall₂_mem_right hinv.edgesCorr ed hedmem
      have hp1 : p.1 = id :=
        alookup_node_inj st.hashToNode hsnd p.1 id nd (hc ▸ hcp.1) hnd
      obtain ⟨e', he', he'1, he'r⟩ :=
        refPairs_mem_decomp parseJson parseId msgs p hp
      have he'eq : e' = (id, k, body) := huniq e' he' (by rw [he'1, hp1])
      rw [he'eq] at he'r
      rw [hrefs] at he'r
      simp at he'r

/-- C4 witness: a message with unparseable body still sorts in. -/
theorem C4_malformed_body_witness :
    (("reply2", 4, "garbage") : String × Nat × String) ∈
      [("reply2", 4, "garbage"), rootW] ∧
    pjW "garbage" = none ∧
    causal_sort pjW pidW [("reply2", 4, "garbage"), rootW] =
      some [1, 4] ∧
    refsOfBody pjW pidW "garbage" = [] ∧
    (∃ l1 l2, ([1, 4] : List Nat) = l1 ++ 4 :: l2) :=
  ⟨by decide, rfl, by decide,
    (C4_malformed_body pjW pidW [("reply2", 4, "garbage"), rootW] "reply2" 4
      "garbage" [1, 4] (by decide) rfl (by decide) (by decide)).1,
    (C4_malformed_body pjW pidW [("reply2", 4, "garbage"), rootW] "reply2" 4
      "garbage" [1, 4] (by decide) rfl (by decide) (by decide)).2.1⟩

/-- C5: the output contains only caller keys of actually-supplied
messages — referenced-but-absent identifiers are structural anchors that
never surface; in particular a single message referencing one absent
root yields exactly that message's key. -/
theorem C5_restriction (parseJson : String → Option Value)
    (parseId : String → Option M) :
    (∀ (msgs : List (M × K × String)) (out : List K),
      causal_sort parseJson parseId msgs = some out →
      ∀ x ∈ out, ∃ e ∈ msgs, e.2.1 = x) ∧
    (∀ (id r : M) (k : K) (body : String),
      refsOfBody parseJson parseId body = [r] → r ≠ id →
      causal_sort parseJson parseId [(id, k, body)] = some [k]) := by
  constructor
  · intro msgs out hcs x hx
    rw [causal_sort] at hcs
    rcases hbd : buildDag parseJson parseId msgs initialState with _ | st
    · rw [hbd] at hcs; cases hcs
    · rw [hbd] at hcs
      injection hcs with hcs
      have hperm := causal_sort_output_perm parseJson parseId msgs st hbd
      rw [hcs] at hperm
      obtain ⟨e, he, hke⟩ := List.mem_map.mp (hperm.mem_iff.mp hx)
      exact ⟨e, dedupByFirstAux_subset msgs [] e he, hke⟩
  · intro id r k body href hne
    exact single_orphan_sort parseJson parseId id r k body href hne

/-- C5 witness: scenario 2 — one message referencing an absent root. -/
theorem C5_restriction_witness :
    refsOfBody pjW pidW "r1" = ["root"] ∧ ("root" : String) ≠ "reply1" ∧
    causal_sort pjW pidW [("reply1", (2 : Nat), "r1")] = some [2] :=
  ⟨by decide, by decide,
    (C5_restriction pjW pidW).2 "reply1" "root" 2 "r1" (by decide)
      (by decide)⟩

/-- C6: the extractor collects exactly the string values at any nesting
depth that parse as identifiers, in depth-first visit order — it is the
depth-first string enumeration filter-mapped through the codec, so
non-strings and unparseable strings contribute nothing and no error is
possible (the function is total). -/
theorem C6_extractor_characterisation (parseId : String → Option M)
    (v : Value) :
    find_all_links parseId v = (dfsStrings v).filterMap parseId :=
  find_all_links_eq_filterMap parseId v

/-- C7: duplicate identifiers raise no error — success still depends only
on cycle-freedom — and the first occurrence's caller key wins: the first
entry is the one kept for its identifier, exactly once. -/
theorem C7_duplicate_first_wins (parseJson : String → Option Value)
    (parseId : String → Option M) (msgs : List (M × K × String))
    (id : M) (k : K) (b : String)
    (hacy : Acyclic (refPairs parseJson parseId msgs))
    (hf : firstEntry msgs id = some (id, k, b))
    (hdup : 2 ≤ (msgs.filter fun e => decide (e.1 = id)).length) :
    ∃ out, causal_sort parseJson parseId msgs = some out ∧
      out.Perm ((dedupByFirst msgs).map fun e => e.2.1) ∧
      (id, k, b) ∈ dedupByFirst msgs ∧
      ((dedupByFirst msgs).filter fun e => decide (e.1 = id)).length = 1 := by
  obtain ⟨out, hout, hperm⟩ :=
    causal_sort_acyclic_spec parseJson parseId msgs hacy
  have hmem : (id, k, b) ∈ dedupByFirst msgs :=
    firstEntry_mem_dedupByFirst msgs id _ hf
  refine ⟨out, hout, hperm, hmem, ?_⟩
  refine filter_eq_length_one (dedupByFirst msgs) (fun e => e.1) id ?_
    (id, k, b) hmem rfl
  rw [dedupByFirst]
  exact ids_dedupByFirstAux_nodup msgs []

/-- C7 witness: two entries share the identifier `reply1`; the first
(key 5) wins, the second (key 7) is dropped, no error. -/
theorem C7_duplicate_first_wins_witness :
    Acyclic (refPairs pjW pidW
      [("reply1", 5, "emptyobj"), ("reply1", 7, "emptyobj"), rootW]) ∧
    firstEntry [("reply1", 5, "emptyobj"), ("reply1", 7, "emptyobj"), rootW] "reply1" =
      some ("reply1", 5, "emptyobj") ∧
    2 ≤ ([("reply1", (5 : Nat), "emptyobj"), ("reply1", 7, "emptyobj"), rootW].filter
      fun e => decide (e.1 = "reply1")).length ∧
    ∃ out, causal_sort pjW pidW
        [("reply1", 5, "emptyobj"), ("reply1", 7, "emptyobj"), rootW] = some out ∧
      out.Perm ((dedupByFirst
        [("reply1", 5, "emptyobj"), ("reply1", 7, "emptyobj"), rootW]).map
          fun e => e.2.1) ∧
      ("reply1", (5 : Nat), "emptyobj") ∈ dedupByFirst
        [("reply1", 5, "emptyobj"), ("reply1", 7, "emptyobj"), rootW] ∧
      ((dedupByFirst [("reply1", 5, "emptyobj"), ("reply1", 7, "emptyobj"), rootW]).filter
        fun e => decide (e.1 = "reply1")).length = 1 :=
  ⟨by decide, by decide, by decide,
    C7_duplicate_first_wins pjW pidW
      [("reply1", 5, "emptyobj"), ("reply1", 7, "emptyobj"), rootW] "reply1" 5 "emptyobj"
      (by decide) (by decide) (by decide)⟩

/-- C8: reference extraction is deterministic — equal bodies yield
identical sequences, hence identical multisets, of identifiers, however
often the extractor is invoked. -/
theorem C8_extraction_deterministic (parseId : String → Option M)
    (b1 b2 : Value) (h : b1 = b2) :
    find_all_links parseId b1 = find_all_links parseId b2 ∧
      (find_all_links parseId b1 : Multiset M) =
        (find_all_links parseId b2 : Multiset M) := by
  subst h
  exact ⟨rfl, rfl⟩

/-- C8 witness: instantiated at a concrete body. -/
theorem C8_extraction_deterministic_witness :
    (Value.str "root" : Value) = Value.str "root" ∧
    (find_all_links pidW (Value.str "root") =
        find_all_links pidW (Value.str "root") ∧
      (find_all_links pidW (Value.str "root") : Multiset String) =
        (find_all_links pidW (Value.str "root") : Multiset String)) :=
  ⟨rfl, C8_extraction_deterministic pidW (Value.str "root")
    (Value.str "root") rfl⟩

/-- C9: for the three-message chain `{root, reply1 → root,
reply2 → root & reply1}` the result is `[reply2, reply1, root]` —
keys `[3, 2, 1]` — in all six supply orders. -/
theorem C9_three_message_scenario (msgs : List (String × Nat × String))
    (h : msgs ∈ perms9) : causal_sort pjW pidW msgs = some [3, 2, 1] := by
  simp only [perms9, List.mem_cons, List.not_mem_nil, or_false] at h
  rcases h with rfl | rfl | rfl | rfl | rfl | rfl <;> decide

/-- C9 witness: one of the six supply orders. -/
theorem C9_three_message_scenario_witness :
    [reply2W, reply1W, rootW] ∈ perms9 ∧
    causal_sort pjW pidW [reply2W, reply1W, rootW] = some [3, 2, 1] :=
  ⟨by decide, C9_three_message_scenario [reply2W, reply1W, rootW] (by decide)⟩

/-- C10: when an identifier appears in several entries, reference edges
from every entry's body attach to the single shared node, so a reference
found in a later duplicate entry still constrains the ordering — the
first entry's key (the one associated with the node) is emitted before
the referenced message's key. -/
theorem C10_duplicate_refs_merged (parseJson : String → Option Value)
    (parseId : String → Option M) (msgs : List (M × K × String))
    (out : List K) (hcs : causal_sort parseJson parseId msgs = some out)
    (entry2 : M × K × String) (h2 : entry2 ∈ msgs)
    (r : M) (hr : r ∈ refsOfBody parseJson parseId entry2.2.2)
    (e1 eR : M × K × String)
    (hf1 : firstEntry msgs entry2.1 = some e1)
    (hfR : firstEntry msgs r = some eR) :
    (∀ st, buildDag parseJson parseId msgs initialState = some st →
      ∃ nd1 nd2, alookup st.hashToNode entry2.1 = some nd1 ∧
        alookup st.hashToNode r = some nd2 ∧ (nd1, nd2) ∈ st.edges) ∧
    ∃ l1 l2 l3, out = l1 ++ e1.2.1 :: l2 ++ eR.2.1 :: l3 := by
  constructor
  · intro st hbd
    have hinv := buildDag_some_inv parseJson parseId msgs [] initialState st
      (BuildInv.initial parseJson parseId) hbd
    rw [List.nil_append] at hinv
    obtain ⟨ed, hed, hced⟩ := forall₂_mem_left hinv.edgesCorr (entry2.1, r)
      (mem_refPairs_of_ref parseJson parseId msgs entry2 h2 r hr)
    exact ⟨ed.1, ed.2, hced.1, hced.2, hed⟩
  · exact causal_sort_order_core parseJson parseId msgs out hcs r entry2 e1 eR
      h2 hr hf1 hfR

/-- C10 witness: the identifier `reply1` appears twice; the second
entry's body references `root`, which still forces the first entry's
key before `root`'s key. -/
theorem C10_duplicate_refs_merged_witness :
    causal_sort pjW pidW
      [("reply1", 2, "emptyobj"), ("reply1", 9, "r1"), rootW] = some [2, 1] ∧
    (("reply1", 9, "r1") : String × Nat × String) ∈
      [("reply1", 2, "emptyobj"), ("reply1", 9, "r1"), rootW] ∧
    ("root" : String) ∈ refsOfBody pjW pidW "r1" ∧
    firstEntry [("reply1", 2, "emptyobj"), ("reply1", 9, "r1"), rootW] "reply1" =
      some ("reply1", 2, "emptyobj") ∧
    firstEntry [("reply1", 2, "emptyobj"), ("reply1", 9, "r1"), rootW] "root" =
      some rootW ∧
    ∃ l1 l2 l3, ([2, 1] : List Nat) = l1 ++ 2 :: l2 ++ 1 :: l3 :=
  ⟨by decide, by decide, by decide, by decide, by decide,
    (C10_duplicate_refs_merged pjW pidW
      [("reply1", 2, "emptyobj"), ("reply1", 9, "r1"), rootW] [2, 1] (by decide)
      ("reply1", 9, "r1") (by decide) "root" (by decide) ("reply1", 2, "emptyobj")
      rootW (by decide) (by decide)).2⟩

end Claims

end CausalSort
